import Mathlib

/-!
Verification of the parameter-coverage and training-set-curation engine of
`vflib2` (`vflib2/datasets.py`) against its specification.

The embedding models the external collaborators (molecular structures, the
labeler, the force-field schema, the file loader, the random sampler) as
explicit data or function parameters, and translates the Python functions
`safe_ring_bond`, `check_torsion_is_in_ring`, `label_and_tag_ids`,
`get_parameter_distribution`, `cap_torsions_per_parameter` and
`select_parameters` into Lean functions.  Python code paths that raise
exceptions (tuple-unpacking errors, `IndexError`, `KeyError`, `ValueError`
from `zip(*[])`, file loading errors) are modelled with `Except Unit`.
-/

deriving instance DecidableEq for Except

namespace Vflib2

open scoped List

/-- A bond of a molecular graph: the two atom indices and the ring-membership
flag reported by the structure capability (`bond.is_in_ring()`). -/
structure Bond where
  atom1 : Nat
  atom2 : Nat
  inRing : Bool
deriving DecidableEq, Repr

/-- A molecular structure: the ordered list of atomic numbers and the bond
relation.  `Molecule.atoms`, `Molecule.bonds` mirror the parts of the openff
`Molecule` used by the code. -/
structure Molecule where
  atoms : List Nat
  bonds : List Bond
deriving DecidableEq, Repr

/-- `mol.get_bond_between(i, j)`: bond lookup by (unordered) atom-index pair;
`none` models the `NotBondedError` case. -/
def get_bond_between (mol : Molecule) (i j : Nat) : Option Bond :=
  mol.bonds.find? (fun b =>
    (b.atom1 == i && b.atom2 == j) || (b.atom1 == j && b.atom2 == i))

/-- `safe_ring_bond(mol, i, j)`: true iff the bond between `i` and `j` exists
and is in a ring; a missing bond (`NotBondedError`) yields `false`. -/
def safe_ring_bond (mol : Molecule) (i j : Nat) : Bool :=
  match get_bond_between mol i j with
  | some b => b.inRing
  | none => false

/-- `check_torsion_is_in_ring(mol, indices)`: unpacks `indices` as
`i, j, k, m` (a `ValueError` — modelled as `.error ()` — when `indices` does
not have exactly four components) and tests whether all three consecutive
bonds are ring bonds. -/
def check_torsion_is_in_ring (mol : Molecule) (indices : List Nat) :
    Except Unit Bool :=
  match indices with
  | [i, j, k, m] =>
      .ok (safe_ring_bond mol i j && safe_ring_bond mol j k &&
        safe_ring_bond mol k m)
  | _ => .error ()

/-- A computation record: a torsion-scan record carries the declared
four-atom dihedral groups (`record.specification.keywords.dihedrals`), an
optimization (point) record does not. -/
inductive Record where
  | torsiondrive (id : String) (dihedrals : List (Nat × Nat × Nat × Nat))
  | optimization (id : String)
deriving DecidableEq, Repr

/-- `record.id`. -/
def Record.id : Record → String
  | .torsiondrive i _ => i
  | .optimization i => i

/-- A four-atom dihedral group as the index list used by slicing. -/
def dihedral_to_list (d : Nat × Nat × Nat × Nat) : List Nat :=
  [d.1, d.2.1, d.2.2.1, d.2.2.2]

/-- Python's `indices[1:3]` as an unordered pair (`set(indices[1:3])`). -/
def central_pair (indices : List Nat) : Finset Nat :=
  ((indices.drop 1).take 2).toFinset

/-- `sum(1 for atom in molecule.atoms if atom.atomic_number != 1)`. -/
def n_heavy_atoms (mol : Molecule) : Nat :=
  (mol.atoms.filter (fun a => a ≠ 1)).length

/-- One site assignment reported by the labeler: the atom-index tuple
(dictionary key) together with the assigned parameter identifier
(`parameter.id`). -/
abbrev Site := List Nat × String

/-- A labeled tuple `(parameter.id, record.id, n_heavy_atoms)` emitted by
`label_and_tag_ids`. -/
abbrev Tag := String × String × Nat

/-- The body of the labeling loop for one site: `.ok none` models `continue`
(the site is discarded), `.ok (some t)` models `parameter_ids.add(t)`, and
`.error ()` models an uncaught Python exception (`IndexError` on a scan
record with no declared dihedrals, `ValueError` when
`check_torsion_is_in_ring` unpacks a tuple whose length is not four). -/
def site_contribution (ring_torsions : List String) (record : Record)
    (mol : Molecule) (site : Site) : Except Unit (Option Tag) :=
  match record with
  | .optimization rid =>
      .ok (some (site.2, rid, n_heavy_atoms mol))
  | .torsiondrive rid dihedrals =>
      match dihedrals with
      | [] => .error ()
      | d0 :: _ =>
          if central_pair site.1 ≠ central_pair (dihedral_to_list d0) then
            .ok none
          else if site.2 ∈ ring_torsions then
            .ok (some (site.2, rid, n_heavy_atoms mol))
          else
            match check_torsion_is_in_ring mol site.1 with
            | .error e => .error e
            | .ok true => .ok none
            | .ok false => .ok (some (site.2, rid, n_heavy_atoms mol))

/-- Adding a tuple to the result set: a duplicate is collapsed (Python `set`
semantics), a new tuple is appended. -/
def insert_tag (acc : List Tag) (t : Tag) : List Tag :=
  if t ∈ acc then acc else acc ++ [t]

/-- The labeling loop over a list of sites, accumulating the set of emitted
tuples (represented as a duplicate-free list). -/
def label_sites_from (ring_torsions : List String) (record : Record)
    (mol : Molecule) (acc : List Tag) : List Site → Except Unit (List Tag)
  | [] => .ok acc
  | s :: rest =>
      match site_contribution ring_torsions record mol s with
      | .error e => .error e
      | .ok none => label_sites_from ring_torsions record mol acc rest
      | .ok (some t) =>
          label_sites_from ring_torsions record mol (insert_tag acc t) rest

/-- `label_and_tag_ids` with the ring-torsion exception list already loaded:
iterates the requested parameter types, and for each type the labeler's site
assignments for the molecule, returning the set of
`(parameter_id, record_id, heavy_atom_count)` tuples. -/
def label_and_tag_ids (ring_torsions : List String) (record : Record)
    (mol : Molecule) (mol_labels : String → List Site)
    (parameter_types : List String) : Except Unit (List Tag) :=
  label_sites_from ring_torsions record mol []
    (parameter_types.flatMap mol_labels)

/-- Loading of the ring-torsion exception list: `explicit_ring_torsions`
absent (`None`) yields the empty list without touching the file system;
otherwise the result of `np.loadtxt` — modelled by the oracle `loadtxt`,
whose `.error` value stands for any raised exception (unreadable or
malformed file) — is surfaced unchanged. -/
def load_ring_torsions (loadtxt : String → Except Unit (List String)) :
    Option String → Except Unit (List String)
  | none => .ok []
  | some path => loadtxt path

/-- `label_and_tag_ids` including the loading of the exception-list file. -/
def label_and_tag_ids_io (loadtxt : String → Except Unit (List String))
    (explicit_ring_torsions : Option String) (record : Record)
    (mol : Molecule) (mol_labels : String → List Site)
    (parameter_types : List String) : Except Unit (List Tag) :=
  match load_ring_torsions loadtxt explicit_ring_torsions with
  | .error e => .error e
  | .ok ring_torsions =>
      label_and_tag_ids ring_torsions record mol mol_labels parameter_types

/-- A schema rule of the force field: parameter identifier and canonical
structural pattern. -/
structure FFParameter where
  id : String
  smirks : String
deriving DecidableEq, Repr

/-- The force-field collaborator: `label mol pt` is the mapping of structural
sites to assigned parameters that `force_field.label_molecules` returns for
parameter type `pt` (as an association list in dictionary order), and
`handlers pt` is the parameter list of `get_parameter_handler(pt)` (so that
`handler.get_parameter({"id": pid})` is the sublist of rules whose `id`
equals `pid`). -/
structure ForceField where
  label : Molecule → String → List Site
  handlers : String → List FFParameter

/-- The coverage map: a `Counter`, i.e. a mapping from parameter identifier
to count, as an association list in key-insertion order. -/
abbrev Coverage := List (String × Nat)

/-- The per-parameter record index: a `defaultdict(list)` mapping each
parameter identifier to its `(n_heavy_atoms, record_id)` entries, as an
association list in key-insertion order. -/
abbrev PRecords := List (String × List (Nat × String))

/-- `coverage[parameter_id] += 1`: increment an existing key, or append a new
key with count 1 (dictionary insertion order). -/
def bump : Coverage → String → Coverage
  | [], pid => [(pid, 1)]
  | (p, n) :: rest, pid =>
      if p = pid then (p, n + 1) :: rest else (p, n) :: bump rest pid

/-- `parameter_records[parameter_id].append(entry)`: append to an existing
key's list, or append a new key (dictionary insertion order). -/
def push_record : PRecords → String → (Nat × String) → PRecords
  | [], pid, e => [(pid, [e])]
  | (p, l) :: rest, pid, e =>
      if p = pid then (p, l ++ [e]) :: rest
      else (p, l) :: push_record rest pid e

/-- Dictionary lookup in the coverage map (`coverage[parameter_id]`, with the
`Counter` default of `0` for a missing key). -/
def cov_count : Coverage → String → Nat
  | [], _ => 0
  | (p, n) :: rest, pid => if p = pid then n else cov_count rest pid

/-- Dictionary lookup in the per-parameter record index; `none` models a
`KeyError`. -/
def pr_find : PRecords → String → Option (List (Nat × String))
  | [], _ => none
  | (p, l) :: rest, pid => if p = pid then some l else pr_find rest pid

/-- The aggregation state `(coverage, parameter_records)`. -/
abbrev AggState := Coverage × PRecords

/-- The inner loop of `get_parameter_distribution`: for every tuple
`(parameter_id, record_id, n_heavy_atoms)` of one record's label set,
increment the coverage count and append `(n_heavy_atoms, record_id)`. -/
def add_tags (st : AggState) (tags : List Tag) : AggState :=
  tags.foldl
    (fun st t => (bump st.1 t.1, push_record st.2 t.1 (t.2.2, t.2.1))) st

/-- The record loop of `get_parameter_distribution` with an explicit
accumulator: label each `(record, molecule)` pair and fold its tuples into
the state, propagating any labeling exception. -/
def gpd_from (ff : ForceField) (parameter_types : List String)
    (ring_torsions : List String) (st : AggState) :
    List (Record × Molecule) → Except Unit AggState
  | [] => .ok st
  | (r, m) :: rest =>
      match label_and_tag_ids ring_torsions r m (ff.label m)
          parameter_types with
      | .error e => .error e
      | .ok tags => gpd_from ff parameter_types ring_torsions
          (add_tags st tags) rest

/-- `get_parameter_distribution` over the dataset's `(record, molecule)`
pairs (the exception list is taken as already loaded). -/
def get_parameter_distribution (ff : ForceField)
    (parameter_types : List String) (ring_torsions : List String)
    (records : List (Record × Molecule)) : Except Unit AggState :=
  gpd_from ff parameter_types ring_torsions ([], []) records

/-- One entry of a result collection: the archived record together with its
molecule (`entry.record_id` coincides with the fetched `record.id`). -/
structure DSEntry where
  record : Record
  molecule : Molecule
deriving DecidableEq, Repr

/-- A result collection: `entries` maps each server address to its entry
list (an association list in dictionary order). -/
structure Dataset where
  entries : List (String × List DSEntry)
deriving DecidableEq, Repr

/-- `dataset.to_records()`: every entry of every address, as
`(record, molecule)` pairs in iteration order. -/
def Dataset.to_records (ds : Dataset) : List (Record × Molecule) :=
  ds.entries.flatMap (fun kl => kl.2.map (fun e => (e.record, e.molecule)))

/-- The three capping policies of `cap_torsions_per_parameter`. -/
inductive CapMethod where
  | pick_random
  | pick_heavy
  | pick_light
deriving DecidableEq, Repr

/-- Descending comparison on the heavy-atom count, as used by
`sorted(..., key=lambda x: x[0], reverse=True)`; insertion sort with this
relation is the stable descending sort. -/
def by_fst_ge (x y : Nat × String) : Prop := y.1 ≤ x.1

/-- Ascending comparison on the heavy-atom count, as used by
`sorted(..., key=lambda x: x[0])`; insertion sort with this relation is the
stable ascending sort. -/
def by_fst_le (x y : Nat × String) : Prop := x.1 ≤ y.1

instance : DecidableRel by_fst_ge := fun x y => Nat.decLe y.1 x.1

instance : DecidableRel by_fst_le := fun x y => Nat.decLe x.1 y.1

instance : IsTotal (Nat × String) by_fst_ge :=
  ⟨fun a b => Nat.le_total b.1 a.1⟩

instance : IsTrans (Nat × String) by_fst_ge :=
  ⟨fun _ _ _ h h' => Nat.le_trans h' h⟩

instance : IsTotal (Nat × String) by_fst_le :=
  ⟨fun a b => Nat.le_total a.1 b.1⟩

instance : IsTrans (Nat × String) by_fst_le :=
  ⟨fun _ _ _ h h' => Nat.le_trans h h'⟩

/-- The per-parameter selection of `cap_torsions_per_parameter`: keep every
entry when the coverage count is within the cap, otherwise apply the chosen
policy.  `sample` is the external source of randomness
(`random.sample(population, cap_size)`), passed as an oracle. -/
def n_atom_records
    (sample : List (Nat × String) → Nat → List (Nat × String))
    (method : CapMethod) (cap_size : Nat) (count : Nat)
    (entries : List (Nat × String)) : List (Nat × String) :=
  if count ≤ cap_size then entries
  else
    match method with
    | .pick_heavy => (entries.insertionSort by_fst_ge).take cap_size
    | .pick_light => (entries.insertionSort by_fst_le).take cap_size
    | .pick_random => sample entries cap_size

/-- The `records_to_keep` dictionary: for every identifier of the coverage
map, the record ids of its selected entries.  `.error ()` models the
`KeyError` on a coverage key missing from `parameter_records` and the
`ValueError` that `_, records = zip(*n_atom_records)` raises on an empty
selection. -/
def records_to_keep
    (sample : List (Nat × String) → Nat → List (Nat × String))
    (method : CapMethod) (cap_size : Nat) :
    Coverage → PRecords → Except Unit (List (String × List String))
  | [], _ => .ok []
  | (pid, n) :: rest, precs =>
      match pr_find precs pid with
      | none => .error ()
      | some entries =>
          match n_atom_records sample method cap_size n entries with
          | [] => .error ()
          | e :: es =>
              match records_to_keep sample method cap_size rest precs with
              | .error err => .error err
              | .ok r => .ok ((pid, (e :: es).map (·.2)) :: r)

/-- The flat `ids_to_keep` list produced by `cap_torsions_per_parameter`:
aggregate the dataset restricted to `"ProperTorsions"`, select per
identifier, and concatenate the selected record ids. -/
def cap_retained_ids (ff : ForceField)
    (sample : List (Nat × String) → Nat → List (Nat × String))
    (cap_size : Nat) (method : CapMethod) (ring_torsions : List String)
    (ds : Dataset) : Except Unit (List String) :=
  match get_parameter_distribution ff ["ProperTorsions"] ring_torsions
      ds.to_records with
  | .error e => .error e
  | .ok (cov, precs) =>
      match records_to_keep sample method cap_size cov precs with
      | .error e => .error e
      | .ok rtk => .ok (rtk.flatMap (·.2))

/-- `cap_torsions_per_parameter`: compute `ids_to_keep`, take the first key
of `dataset.entries` (`list(dataset.entries.keys())[0]` — an `IndexError`,
modelled as `.error ()`, when there is none) and filter that key's entry
list in place, leaving any other key untouched. -/
def cap_torsions_per_parameter (ff : ForceField)
    (sample : List (Nat × String) → Nat → List (Nat × String))
    (cap_size : Nat) (method : CapMethod) (ring_torsions : List String)
    (ds : Dataset) : Except Unit Dataset :=
  match cap_retained_ids ff sample cap_size method ring_torsions ds with
  | .error e => .error e
  | .ok ids =>
      match ds.entries with
      | [] => .error ()
      | (key, l) :: rest =>
          .ok ⟨(key, l.filter (fun e => decide (e.record.id ∈ ids))) :: rest⟩

/-- The per-type loop body of `select_parameters`: iterate the coverage map
in insertion order; skip identifiers below the threshold, resolve the
identifier through the handler's rule list, skip silently when no rule
matches, and collect the first matching rule's pattern. -/
def select_for (ff : ForceField) (cov : Coverage) (min_coverage : Nat)
    (parameter_type : String) : List String :=
  cov.filterMap (fun pc =>
    if pc.2 < min_coverage then none
    else
      match (ff.handlers parameter_type).filter (fun p => p.id == pc.1) with
      | [] => none
      | p :: _ => some p.smirks)

/-- `select_parameters`: aggregate the dataset, then produce for every
requested parameter type the list of selected patterns (a parameter type
whose list is empty is never touched by `append` in the source, so an empty
list stands for the key being absent from the `defaultdict`). -/
def select_parameters (ff : ForceField) (parameter_types : List String)
    (ring_torsions : List String) (records : List (Record × Molecule))
    (min_coverage : Nat) : Except Unit (List (String × List String)) :=
  match get_parameter_distribution ff parameter_types ring_torsions
      records with
  | .error e => .error e
  | .ok (cov, _) =>
      .ok (parameter_types.map (fun pt =>
        (pt, select_for ff cov min_coverage pt)))

/-! ### Basic lemmas about the labeling loop -/

theorem mem_insert_tag_self (acc : List Tag) (t : Tag) : t ∈ insert_tag acc t := by
  unfold insert_tag
  split
  · assumption
  · simp

theorem mem_insert_tag_of_mem {acc : List Tag} {t : Tag} (u : Tag)
    (h : t ∈ acc) : t ∈ insert_tag acc u := by
  unfold insert_tag
  split
  · exact h
  · simp [h]

theorem label_sites_from_mono {rt : List String} {r : Record} {m : Molecule}
    {l : List Site} {acc out : List Tag} {t : Tag}
    (h : label_sites_from rt r m acc l = .ok out) (ht : t ∈ acc) : t ∈ out := by
  induction l generalizing acc with
  | nil =>
      simp only [label_sites_from, Except.ok.injEq] at h
      exact h ▸ ht
  | cons s rest ih =>
      unfold label_sites_from at h
      cases hc : site_contribution rt r m s with
      | error e => rw [hc] at h; cases h
      | ok o =>
          rw [hc] at h
          cases o with
          | none => exact ih h ht
          | some u => exact ih h (mem_insert_tag_of_mem u ht)

theorem label_sites_from_mem {rt : List String} {r : Record} {m : Molecule}
    {l : List Site} {acc out : List Tag} {s : Site} {t : Tag}
    (h : label_sites_from rt r m acc l = .ok out) (hs : s ∈ l)
    (hc : site_contribution rt r m s = .ok (some t)) : t ∈ out := by
  induction l generalizing acc with
  | nil => cases hs
  | cons s' rest ih =>
      rcases List.mem_cons.mp hs with rfl | hs'
      · unfold label_sites_from at h
        rw [hc] at h
        exact label_sites_from_mono h (mem_insert_tag_self acc t)
      · unfold label_sites_from at h
        cases hc' : site_contribution rt r m s' with
        | error e => rw [hc'] at h; cases h
        | ok o =>
            rw [hc'] at h
            cases o with
            | none => exact ih h hs'
            | some u => exact ih h hs'

theorem label_sites_from_skip {rt : List String} {r : Record} {m : Molecule}
    {s : Site} (acc : List Tag) (rest : List Site)
    (hc : site_contribution rt r m s = .ok none) :
    label_sites_from rt r m acc (s :: rest) =
      label_sites_from rt r m acc rest := by
  conv_lhs => rw [label_sites_from]
  rw [hc]

/-! ### C2: torsion-center mismatch rejection -/

/-- C2: for a scan record (with its first declared dihedral `d0`), a site
whose central two indices — as an unordered pair — differ from `d0`'s
central pair is discarded; a four-index site whose central pair matches
passes the check and proceeds to the ring-exclusion policy. -/
theorem C2_center_check (rt : List String) (rid : String)
    (d0 : Nat × Nat × Nat × Nat) (ds : List (Nat × Nat × Nat × Nat))
    (mol : Molecule) :
    (∀ site : Site,
      central_pair site.1 ≠ central_pair (dihedral_to_list d0) →
      site_contribution rt (.torsiondrive rid (d0 :: ds)) mol site = .ok none)
    ∧ (∀ i j k l pid (b : Bool),
      central_pair [i, j, k, l] = central_pair (dihedral_to_list d0) →
      check_torsion_is_in_ring mol [i, j, k, l] = .ok b →
      site_contribution rt (.torsiondrive rid (d0 :: ds)) mol
          ([i, j, k, l], pid) =
        .ok (if pid ∈ rt then some (pid, rid, n_heavy_atoms mol)
          else if b then none
          else some (pid, rid, n_heavy_atoms mol))) := by
  constructor
  · intro site hne
    simp only [site_contribution]
    rw [if_pos hne]
  · intro i j k l pid b hcenter hb
    have hcc : ¬ (central_pair [i, j, k, l] ≠ central_pair
        (dihedral_to_list d0)) := not_not_intro hcenter
    by_cases hrt : pid ∈ rt
    · simp [site_contribution, hcc, hrt]
    · cases b
      · simp [site_contribution, hcc, hrt, hb]
      · simp [site_contribution, hcc, hrt, hb]

/-- Witness for `C2_center_check`: a scan declaring center `(1,2)` rejects a
site whose center is `(4,5)` even though the outer atoms agree, and accepts
one whose center is `(2,1)`. -/
theorem C2_center_check_witness :
    site_contribution [] (.torsiondrive "r1" [(0, 1, 2, 3)])
        (Molecule.mk [6, 6] []) ([0, 4, 5, 3], "t1") = .ok none ∧
      site_contribution [] (.torsiondrive "r1" [(0, 1, 2, 3)])
        (Molecule.mk [6, 6] []) ([0, 2, 1, 3], "t1") =
        .ok (some ("t1", "r1", 2)) := by
  refine ⟨(C2_center_check [] "r1" (0, 1, 2, 3) [] (Molecule.mk [6, 6] [])).1
    ([0, 4, 5, 3], "t1") (by decide), ?_⟩
  have h := (C2_center_check [] "r1" (0, 1, 2, 3) [] (Molecule.mk [6, 6] [])).2
    0 2 1 3 "t1" false (by decide) (by decide)
  simpa using h

/-! ### C1: ring-torsion exclusion and the exception list -/

/-- A six-carbon molecule whose bonds `0-4`, `4-5`, `5-3` are ring bonds. -/
def mol_ring : Molecule :=
  ⟨[6, 6, 6, 6, 6, 6], [⟨0, 4, true⟩, ⟨4, 5, true⟩, ⟨5, 3, true⟩]⟩

/-- A scan record whose only declared dihedral has central atoms `(1, 2)`. -/
def rec_scan : Record := .torsiondrive "r1" [(0, 1, 2, 3)]

/-- A labeler reporting one proper-torsion site `0-4-5-3` (central pair
`(4, 5)`, mismatching `rec_scan`'s declared center) assigned to `t1`. -/
def labels_mismatch : String → List Site := fun pt =>
  if pt = "ProperTorsions" then [([0, 4, 5, 3], "t1")] else []

/-- Counterexample to C1 as stated: the site `0-4-5-3` of `mol_ring` has all
three consecutive bonds flagged as ring bonds and its identifier `t1` is in
the exception list, yet its tuple is *not* included in the label output,
because the site's central pair `(4, 5)` mismatches the scan's declared
center `(1, 2)`: the claim's second half fails without a center-match
proviso. -/
theorem C1_counterexample :
    (safe_ring_bond mol_ring 0 4 = true ∧ safe_ring_bond mol_ring 4 5 = true ∧
      safe_ring_bond mol_ring 5 3 = true) ∧
    "t1" ∈ ["t1"] ∧
    ([0, 4, 5, 3], "t1") ∈ labels_mismatch "ProperTorsions" ∧
    label_and_tag_ids ["t1"] rec_scan mol_ring labels_mismatch
      ["ProperTorsions"] = .ok [] ∧
    ("t1", "r1", n_heavy_atoms mol_ring) ∉ ([] : List Tag) := by
  refine ⟨by decide, by decide, by decide, ?_, by decide⟩
  decide

/-- C1 (amended with the center-match proviso forced by
`C1_counterexample`): for a scan-record torsion site with all three
consecutive bonds in rings, (a) when the identifier is not in the exception
list the site contributes nothing to the label output — the labeling loop is
unchanged by removing it; (b) when the identifier is in the exception list
and the site's central pair matches the scan's first declared center, the
site's tuple is included in the output. -/
theorem C1_ring_exclusion (rt : List String) (rid : String)
    (d0 : Nat × Nat × Nat × Nat) (ds : List (Nat × Nat × Nat × Nat))
    (mol : Molecule) (i j k l : Nat) (pid : String)
    (hij : safe_ring_bond mol i j = true)
    (hjk : safe_ring_bond mol j k = true)
    (hkl : safe_ring_bond mol k l = true) :
    (pid ∉ rt → ∀ (acc : List Tag) (rest : List Site),
      label_sites_from rt (.torsiondrive rid (d0 :: ds)) mol acc
          (([i, j, k, l], pid) :: rest) =
        label_sites_from rt (.torsiondrive rid (d0 :: ds)) mol acc rest)
    ∧ (pid ∈ rt →
      central_pair [i, j, k, l] = central_pair (dihedral_to_list d0) →
      ∀ (mol_labels : String → List Site) (pts : List String) (pt : String)
        (out : List Tag), pt ∈ pts → ([i, j, k, l], pid) ∈ mol_labels pt →
      label_and_tag_ids rt (.torsiondrive rid (d0 :: ds)) mol mol_labels
          pts = .ok out →
      (pid, rid, n_heavy_atoms mol) ∈ out) := by
  constructor
  · intro hrt acc rest
    apply label_sites_from_skip
    by_cases hcen : central_pair [i, j, k, l] =
        central_pair (dihedral_to_list d0)
    · have h := (C2_center_check rt rid d0 ds mol).2 i j k l pid true hcen
        (by simp [check_torsion_is_in_ring, hij, hjk, hkl])
      simpa [hrt] using h
    · exact (C2_center_check rt rid d0 ds mol).1 ([i, j, k, l], pid) hcen
  · intro hrt hcen mol_labels pts pt out hpt hsite hlab
    have hc := (C2_center_check rt rid d0 ds mol).2 i j k l pid true hcen
      (by simp [check_torsion_is_in_ring, hij, hjk, hkl])
    rw [if_pos hrt] at hc
    exact label_sites_from_mem hlab
      (List.mem_flatMap.mpr ⟨pt, hpt, hsite⟩) hc

/-- Witness for `C1_ring_exclusion` on `mol_ring` with a matching-center
scan record: with `t1` outside the exception list the site contributes
nothing; with `t1` inside it the tuple appears in the output. -/
theorem C1_ring_exclusion_witness :
    (safe_ring_bond mol_ring 0 4 = true ∧ safe_ring_bond mol_ring 4 5 = true ∧
      safe_ring_bond mol_ring 5 3 = true) ∧
    label_sites_from [] (.torsiondrive "r2" [(0, 4, 5, 3)]) mol_ring []
        [([0, 4, 5, 3], "t1")] = label_sites_from []
        (.torsiondrive "r2" [(0, 4, 5, 3)]) mol_ring [] [] ∧
    ("t1", "r2", n_heavy_atoms mol_ring) ∈ ([("t1", "r2", 6)] : List Tag) := by
  refine ⟨⟨rfl, rfl, rfl⟩, ?_, ?_⟩
  · exact (C1_ring_exclusion [] "r2" (0, 4, 5, 3) [] mol_ring 0 4 5 3 "t1"
      rfl rfl rfl).1 (by decide) [] []
  · exact (C1_ring_exclusion ["t1"] "r2" (0, 4, 5, 3) [] mol_ring 0 4 5 3
      "t1" rfl rfl rfl).2 (by decide) (by decide)
      (fun pt => if pt = "ProperTorsions" then [([0, 4, 5, 3], "t1")] else [])
      ["ProperTorsions"] "ProperTorsions" [("t1", "r2", 6)]
      (by decide) (by decide) (by decide)

/-! ### C3: the filters gate on the record kind, not the parameter type -/

/-- A labeler reporting one bond site `0-1` assigned to `b1`. -/
def labels_bond : String → List Site := fun pt =>
  if pt = "Bonds" then [([0, 1], "b1")] else []

/-- Counterexample to C3 as stated: on a scan record the center check is
applied to *every* parameter type, so a two-index bond site is silently
discarded (`set(indices[1:3])` is a singleton and can never equal the scan's
two-element central pair) instead of being emitted. -/
theorem C3_counterexample :
    ([0, 1], "b1") ∈ labels_bond "Bonds" ∧
    label_and_tag_ids [] rec_scan mol_ring labels_bond ["Bonds"] =
      .ok [] ∧
    ("b1", "r1", n_heavy_atoms mol_ring) ∉ ([] : List Tag) := by
  refine ⟨by decide, ?_, by decide⟩
  decide

/-- C3 (amended): the torsion-center and ring-membership filters gate on the
*record kind*, not on the parameter type under test: (a) for a point record
every site assignment of every parameter type is emitted; (b) on a scan
record even a two-index bond site is subject to the center check, and is
always discarded when the scan's two central atoms are distinct. -/
theorem C3_filters_gate_on_record_kind :
    (∀ (rt : List String) (mol : Molecule) (rid : String)
      (mol_labels : String → List Site) (pts : List String) (pt : String)
      (s : Site) (out : List Tag), pt ∈ pts → s ∈ mol_labels pt →
      label_and_tag_ids rt (.optimization rid) mol mol_labels pts = .ok out →
      (s.2, rid, n_heavy_atoms mol) ∈ out)
    ∧ (∀ (rt : List String) (mol : Molecule) (rid : String) (a b c e : Nat)
      (ds : List (Nat × Nat × Nat × Nat)) (x y : Nat) (pid : String),
      b ≠ c →
      site_contribution rt (.torsiondrive rid ((a, b, c, e) :: ds)) mol
        ([x, y], pid) = .ok none) := by
  constructor
  · intro rt mol rid mol_labels pts pt s out hpt hs hlab
    exact label_sites_from_mem hlab (List.mem_flatMap.mpr ⟨pt, hpt, hs⟩) rfl
  · intro rt mol rid a b c e ds x y pid hbc
    apply (C2_center_check rt rid (a, b, c, e) ds mol).1
    intro h
    have hb : b ∈ central_pair [x, y] := by
      rw [h]; simp [central_pair, dihedral_to_list]
    have hc : c ∈ central_pair [x, y] := by
      rw [h]; simp [central_pair, dihedral_to_list]
    simp only [central_pair, List.drop, List.take, List.toFinset_cons,
      List.toFinset_nil, insert_emptyc_eq, Finset.mem_singleton] at hb hc
    exact hbc (hb.trans hc.symm)

/-- Witness for `C3_filters_gate_on_record_kind`: a bond site is emitted
for a point record, and the same site is discarded on a scan record. -/
theorem C3_filters_witness :
    ("b1", "r9", n_heavy_atoms mol_ring) ∈ ([("b1", "r9", 6)] : List Tag) ∧
    site_contribution [] rec_scan mol_ring ([0, 1], "b1") = .ok none := by
  constructor
  · exact C3_filters_gate_on_record_kind.1 [] mol_ring "r9" labels_bond
      ["Bonds"] "Bonds" ([0, 1], "b1") [("b1", "r9", 6)] (by decide)
      (by decide) (by decide)
  · exact C3_filters_gate_on_record_kind.2 [] mol_ring "r1" 0 1 2 3 [] 0 1
      "b1" (by decide)

/-! ### C4: absent exception-list file vs. malformed file -/

/-- C4: when no exception-list file is supplied, labeling proceeds with the
empty exception set and raises no error (and, with the empty set, every
in-ring torsion site of a scan record is excluded); when a supplied file
cannot be loaded (`np.loadtxt` raises — the loader oracle returns
`.error`), the error is surfaced to the caller. -/
theorem C4_exception_list_loading :
    (∀ (loadtxt : String → Except Unit (List String)) (record : Record)
      (mol : Molecule) (mol_labels : String → List Site)
      (pts : List String),
      label_and_tag_ids_io loadtxt none record mol mol_labels pts =
        label_and_tag_ids [] record mol mol_labels pts)
    ∧ (∀ (loadtxt : String → Except Unit (List String)) (path : String)
      (record : Record) (mol : Molecule) (mol_labels : String → List Site)
      (pts : List String), loadtxt path = .error () →
      label_and_tag_ids_io loadtxt (some path) record mol mol_labels pts =
        .error ())
    ∧ (∀ (mol : Molecule) (rid : String) (d0 : Nat × Nat × Nat × Nat)
      (ds : List (Nat × Nat × Nat × Nat)) (i j k l : Nat) (pid : String),
      safe_ring_bond mol i j = true → safe_ring_bond mol j k = true →
      safe_ring_bond mol k l = true →
      site_contribution [] (.torsiondrive rid (d0 :: ds)) mol
        ([i, j, k, l], pid) = .ok none) := by
  refine ⟨fun _ _ _ _ _ => rfl, fun loadtxt path _ _ _ _ h => ?_, ?_⟩
  · simp only [label_and_tag_ids_io, load_ring_torsions, h]
  · intro mol rid d0 ds i j k l pid hij hjk hkl
    by_cases hcen : central_pair [i, j, k, l] =
        central_pair (dihedral_to_list d0)
    · have h := (C2_center_check [] rid d0 ds mol).2 i j k l pid true hcen
        (by simp [check_torsion_is_in_ring, hij, hjk, hkl])
      simpa using h
    · exact (C2_center_check [] rid d0 ds mol).1 ([i, j, k, l], pid) hcen

/-- Witness for `C4_exception_list_loading`: a loader failing on path
`"missing.dat"` makes labeling fatal, while supplying no path labels with
the empty exception set and excludes the in-ring site of `mol_ring`. -/
theorem C4_exception_list_witness :
    label_and_tag_ids_io (fun _ => .error ()) (some "missing.dat") rec_scan
        mol_ring labels_mismatch ["ProperTorsions"] = .error () ∧
    label_and_tag_ids_io (fun _ => .error ()) none rec_scan mol_ring
        labels_mismatch ["ProperTorsions"] =
      label_and_tag_ids [] rec_scan mol_ring labels_mismatch
        ["ProperTorsions"] ∧
    site_contribution [] (.torsiondrive "r2" [(0, 4, 5, 3)]) mol_ring
      ([0, 4, 5, 3], "t1") = .ok none := by
  refine ⟨C4_exception_list_loading.2.1 (fun _ => .error ()) "missing.dat"
    rec_scan mol_ring labels_mismatch ["ProperTorsions"] rfl,
    C4_exception_list_loading.1 (fun _ => .error ()) rec_scan mol_ring
      labels_mismatch ["ProperTorsions"],
    C4_exception_list_loading.2.2 mol_ring "r2" (0, 4, 5, 3) [] 0 4 5 3 "t1"
      rfl rfl rfl⟩

/-! ### The aggregation state: lookup lemmas -/

/-- Lookup in the per-parameter record index with the empty default (for
stating lemmas; the code itself raises `KeyError`, see `records_to_keep`). -/
def pr_getD (precs : PRecords) (pid : String) : List (Nat × String) :=
  (pr_find precs pid).getD []

/-- The `(n_heavy_atoms, record_id)` entries that a tag list contributes to
identifier `q`. -/
def tag_entries (tags : List Tag) (q : String) : List (Nat × String) :=
  (tags.filter (fun t => t.1 == q)).map (fun t => (t.2.2, t.2.1))

/-- The entries one `(record, molecule)` pair contributes to identifier `q`
(empty on a labeling error — unreachable when aggregation succeeds). -/
def record_entries (ff : ForceField) (pts rt : List String)
    (rm : Record × Molecule) (q : String) : List (Nat × String) :=
  match label_and_tag_ids rt rm.1 rm.2 (ff.label rm.2) pts with
  | .ok tags => tag_entries tags q
  | .error _ => []

/-- All entries a record list contributes to identifier `q`, in dataset
iteration order. -/
def dataset_entries_for (ff : ForceField) (pts rt : List String)
    (recs : List (Record × Molecule)) (q : String) : List (Nat × String) :=
  recs.flatMap (fun rm => record_entries ff pts rt rm q)

theorem cov_count_bump (cov : Coverage) (pid q : String) :
    cov_count (bump cov pid) q =
      cov_count cov q + (if pid = q then 1 else 0) := by
  induction cov with
  | nil =>
      by_cases h : pid = q <;> simp [bump, cov_count, h]
  | cons hd tl ih =>
      obtain ⟨p, n⟩ := hd
      by_cases hp : p = pid
      · subst hp
        by_cases hq : p = q
        · subst hq; simp [bump, cov_count]
        · simp [bump, cov_count, hq]
      · by_cases hq : p = q
        · subst hq
          have : ¬ pid = p := fun h => hp h.symm
          simp [bump, cov_count, hp, this]
        · simp [bump, cov_count, hp, hq, ih]

theorem pr_getD_push (precs : PRecords) (pid q : String) (e : Nat × String) :
    pr_getD (push_record precs pid e) q =
      pr_getD precs q ++ (if pid = q then [e] else []) := by
  induction precs with
  | nil =>
      by_cases h : pid = q <;> simp [push_record, pr_getD, pr_find, h]
  | cons hd tl ih =>
      obtain ⟨p, l⟩ := hd
      by_cases hp : p = pid
      · subst hp
        by_cases hq : p = q
        · subst hq; simp [push_record, pr_getD, pr_find]
        · simp [push_record, pr_getD, pr_find, hq]
      · by_cases hq : p = q
        · subst hq
          have : ¬ pid = p := fun h => hp h.symm
          simp [push_record, pr_getD, pr_find, hp, this]
        · simp only [push_record, hp, ite_false]
          simp only [pr_getD, pr_find, hq, ite_false] at ih ⊢
          exact ih

theorem add_tags_cons (st : AggState) (t : Tag) (ts : List Tag) :
    add_tags st (t :: ts) =
      add_tags (bump st.1 t.1, push_record st.2 t.1 (t.2.2, t.2.1)) ts := rfl

theorem add_tags_cov (tags : List Tag) (st : AggState) (q : String) :
    cov_count (add_tags st tags).1 q =
      cov_count st.1 q + (tags.filter (fun t => t.1 == q)).length := by
  induction tags generalizing st with
  | nil => simp [add_tags]
  | cons t ts ih =>
      rw [add_tags_cons, ih]
      by_cases h : t.1 = q
      · simp [List.filter_cons, h, cov_count_bump]
        omega
      · simp [List.filter_cons, h, cov_count_bump]

theorem add_tags_pr (tags : List Tag) (st : AggState) (q : String) :
    pr_getD (add_tags st tags).2 q = pr_getD st.2 q ++ tag_entries tags q := by
  induction tags generalizing st with
  | nil => simp [add_tags, tag_entries]
  | cons t ts ih =>
      rw [add_tags_cons, ih]
      by_cases h : t.1 = q
      · simp [tag_entries, List.filter_cons, h, pr_getD_push]
      · simp [tag_entries, List.filter_cons, h, pr_getD_push]

theorem gpd_from_cov {ff : ForceField} {pts rt : List String}
    {recs : List (Record × Molecule)} {st st' : AggState}
    (h : gpd_from ff pts rt st recs = .ok st') (q : String) :
    cov_count st'.1 q =
      cov_count st.1 q + (dataset_entries_for ff pts rt recs q).length := by
  induction recs generalizing st with
  | nil =>
      simp only [gpd_from, Except.ok.injEq] at h
      simp [← h, dataset_entries_for]
  | cons rm rest ih =>
      obtain ⟨r, m⟩ := rm
      unfold gpd_from at h
      cases hl : label_and_tag_ids rt r m (ff.label m) pts with
      | error e => rw [hl] at h; cases h
      | ok tags =>
          rw [hl] at h
          rw [ih h, add_tags_cov]
          simp [dataset_entries_for, record_entries, hl, tag_entries]
          omega

theorem gpd_from_pr {ff : ForceField} {pts rt : List String}
    {recs : List (Record × Molecule)} {st st' : AggState}
    (h : gpd_from ff pts rt st recs = .ok st') (q : String) :
    pr_getD st'.2 q =
      pr_getD st.2 q ++ dataset_entries_for ff pts rt recs q := by
  induction recs generalizing st with
  | nil =>
      simp only [gpd_from, Except.ok.injEq] at h
      simp [← h, dataset_entries_for]
  | cons rm rest ih =>
      obtain ⟨r, m⟩ := rm
      unfold gpd_from at h
      cases hl : label_and_tag_ids rt r m (ff.label m) pts with
      | error e => rw [hl] at h; cases h
      | ok tags =>
          rw [hl] at h
          rw [ih h, add_tags_pr]
          simp [dataset_entries_for, record_entries, hl]

theorem gpd_cov {ff : ForceField} {pts rt : List String}
    {recs : List (Record × Molecule)} {cov : Coverage} {precs : PRecords}
    (h : get_parameter_distribution ff pts rt recs = .ok (cov, precs))
    (q : String) :
    cov_count cov q = (dataset_entries_for ff pts rt recs q).length := by
  have h0 : gpd_from ff pts rt ([], []) recs = .ok (cov, precs) := h
  have := gpd_from_cov h0 q
  simpa [cov_count] using this

theorem gpd_pr {ff : ForceField} {pts rt : List String}
    {recs : List (Record × Molecule)} {cov : Coverage} {precs : PRecords}
    (h : get_parameter_distribution ff pts rt recs = .ok (cov, precs))
    (q : String) :
    pr_getD precs q = dataset_entries_for ff pts rt recs q := by
  have h0 : gpd_from ff pts rt ([], []) recs = .ok (cov, precs) := h
  have := gpd_from_pr h0 q
  simpa [pr_getD, pr_find] using this

/-! ### C8: coverage additivity -/

/-- C8: for a dataset split into sub-collections `A` and `B` (labeled with
the same parameter types, force field, and exception list), the coverage
count of every parameter identifier over the combined dataset is the sum of
its counts over `A` and over `B`. -/
theorem C8_coverage_additivity (ff : ForceField) (pts rt : List String)
    (A B : List (Record × Molecule)) (covA covB covAB : Coverage)
    (precsA precsB precsAB : PRecords)
    (hA : get_parameter_distribution ff pts rt A = .ok (covA, precsA))
    (hB : get_parameter_distribution ff pts rt B = .ok (covB, precsB))
    (hAB : get_parameter_distribution ff pts rt (A ++ B) =
      .ok (covAB, precsAB)) :
    ∀ pid, cov_count covAB pid = cov_count covA pid + cov_count covB pid := by
  intro pid
  rw [gpd_cov hA pid, gpd_cov hB pid, gpd_cov hAB pid]
  simp [dataset_entries_for]

/-- Witness for `C8_coverage_additivity`: two one-record datasets touching
the same identifier `t1`; the combined coverage count is `2 = 1 + 1`. -/
theorem C8_coverage_additivity_witness :
    cov_count [("t1", 2)] "t1" = cov_count [("t1", 1)] "t1" +
      cov_count [("t1", 1)] "t1" := by
  have hA : get_parameter_distribution
      (ForceField.mk (fun _ pt =>
        if pt = "ProperTorsions" then [([0, 1, 2, 3], "t1")] else [])
        (fun _ => []))
      ["ProperTorsions"] [] [(.optimization "rA", ⟨[6], []⟩)] =
      .ok ([("t1", 1)], [("t1", [(1, "rA")])]) := by decide
  have hB : get_parameter_distribution
      (ForceField.mk (fun _ pt =>
        if pt = "ProperTorsions" then [([0, 1, 2, 3], "t1")] else [])
        (fun _ => []))
      ["ProperTorsions"] [] [(.optimization "rB", ⟨[6], []⟩)] =
      .ok ([("t1", 1)], [("t1", [(1, "rB")])]) := by decide
  have hAB : get_parameter_distribution
      (ForceField.mk (fun _ pt =>
        if pt = "ProperTorsions" then [([0, 1, 2, 3], "t1")] else [])
        (fun _ => []))
      ["ProperTorsions"] []
      ([(.optimization "rA", ⟨[6], []⟩)] ++ [(.optimization "rB", ⟨[6], []⟩)]) =
      .ok ([("t1", 2)], [("t1", [(1, "rA"), (1, "rB")])]) := by decide
  exact C8_coverage_additivity _ _ _ _ _ _ _ _ _ _ _ hA hB hAB "t1"

/-! ### Key invariants of the aggregation state -/

theorem cov_count_eq_of_mem {cov : Coverage} {pid : String} {n : Nat}
    (hnd : (cov.map Prod.fst).Nodup) (h : (pid, n) ∈ cov) :
    cov_count cov pid = n := by
  induction cov with
  | nil => cases h
  | cons hd tl ih =>
      obtain ⟨p, m⟩ := hd
      rcases List.mem_cons.mp h with heq | htl
      · obtain ⟨rfl, rfl⟩ := Prod.mk.injEq .. ▸ heq
        simp [cov_count]
      · have hp : p ≠ pid := by
          rintro rfl
          exact (List.nodup_cons.mp hnd).1
            (List.mem_map.mpr ⟨(p, n), htl, rfl⟩)
        simp only [cov_count, hp, ite_false]
        exact ih (List.nodup_cons.mp hnd).2 htl

theorem bump_keys (cov : Coverage) (pid : String) :
    (bump cov pid).map Prod.fst =
      if pid ∈ cov.map Prod.fst then cov.map Prod.fst
      else cov.map Prod.fst ++ [pid] := by
  induction cov with
  | nil => simp [bump]
  | cons hd tl ih =>
      obtain ⟨p, n⟩ := hd
      by_cases hp : p = pid
      · subst hp; simp [bump]
      · have : ¬ pid = p := fun h => hp h.symm
        by_cases hm : pid ∈ tl.map Prod.fst
        · simp [bump, hp, hm, this, ih]
        · simp [bump, hp, hm, this, ih]

theorem push_keys (precs : PRecords) (pid : String) (e : Nat × String) :
    (push_record precs pid e).map Prod.fst =
      if pid ∈ precs.map Prod.fst then precs.map Prod.fst
      else precs.map Prod.fst ++ [pid] := by
  induction precs with
  | nil => simp [push_record]
  | cons hd tl ih =>
      obtain ⟨p, l⟩ := hd
      by_cases hp : p = pid
      · subst hp; simp [push_record]
      · have : ¬ pid = p := fun h => hp h.symm
        by_cases hm : pid ∈ tl.map Prod.fst
        · simp [push_record, hp, hm, this, ih]
        · simp [push_record, hp, hm, this, ih]

/-- The aggregation state invariant: coverage keys and per-parameter index
keys agree (as ordered lists), and the keys are duplicate-free. -/
def AggInv (st : AggState) : Prop :=
  st.1.map Prod.fst = st.2.map Prod.fst ∧ (st.1.map Prod.fst).Nodup

theorem AggInv.add_tags {st : AggState} (h : AggInv st) (tags : List Tag) :
    AggInv (Vflib2.add_tags st tags) := by
  induction tags generalizing st with
  | nil => exact h
  | cons t ts ih =>
      rw [add_tags_cons]
      apply ih
      obtain ⟨hkeys, hnd⟩ := h
      constructor
      · rw [bump_keys, push_keys, ← hkeys]
      · rw [bump_keys]
        split
        · exact hnd
        · rename_i hmem
          rw [List.nodup_append]
          exact ⟨hnd, List.nodup_singleton _,
            by simpa [List.disjoint_singleton] using hmem⟩

theorem gpd_from_inv {ff : ForceField} {pts rt : List String}
    {recs : List (Record × Molecule)} {st st' : AggState}
    (h : gpd_from ff pts rt st recs = .ok st') (hst : AggInv st) :
    AggInv st' := by
  induction recs generalizing st with
  | nil =>
      simp only [gpd_from, Except.ok.injEq] at h
      exact h ▸ hst
  | cons rm rest ih =>
      obtain ⟨r, m⟩ := rm
      unfold gpd_from at h
      cases hl : label_and_tag_ids rt r m (ff.label m) pts with
      | error e => rw [hl] at h; cases h
      | ok tags =>
          rw [hl] at h
          exact ih h (hst.add_tags tags)

theorem gpd_inv {ff : ForceField} {pts rt : List String}
    {recs : List (Record × Molecule)} {cov : Coverage} {precs : PRecords}
    (h : get_parameter_distribution ff pts rt recs = .ok (cov, precs)) :
    cov.map Prod.fst = precs.map Prod.fst ∧ (cov.map Prod.fst).Nodup :=
  gpd_from_inv h ⟨rfl, List.nodup_nil⟩

/-! ### C5: capping respects the threshold -/

theorem n_atom_records_length
    {sample : List (Nat × String) → Nat → List (Nat × String)}
    {method : CapMethod} {cap_size n : Nat} {E : List (Nat × String)}
    (hE : E.length = n)
    (hsample : method = .pick_random →
      ∀ l k, k ≤ l.length → (sample l k).length = k) :
    (n_atom_records sample method cap_size n E).length = min n cap_size := by
  unfold n_atom_records
  by_cases h : n ≤ cap_size
  · simp [h, hE, Nat.min_eq_left h]
  · have hc : cap_size ≤ n := Nat.le_of_lt (Nat.lt_of_not_le h)
    rw [if_neg h]
    cases method with
    | pick_heavy =>
        simp [List.length_take, List.length_insertionSort, hE,
          Nat.min_comm cap_size n]
    | pick_light =>
        simp [List.length_take, List.length_insertionSort, hE,
          Nat.min_comm cap_size n]
    | pick_random =>
        rw [hsample rfl E cap_size (hE ▸ hc)]
        exact (Nat.min_eq_right hc).symm

theorem records_to_keep_spec
    {sample : List (Nat × String) → Nat → List (Nat × String)}
    {method : CapMethod} {cap_size : Nat} {cov : Coverage}
    {precs : PRecords} {rtk : List (String × List String)}
    (hrtk : records_to_keep sample method cap_size cov precs = .ok rtk)
    (hsample : method = .pick_random →
      ∀ l k, k ≤ l.length → (sample l k).length = k)
    (hlen : ∀ pid n, (pid, n) ∈ cov → (pr_getD precs pid).length = n) :
    ∀ pid n, (pid, n) ∈ cov →
      ∃ ids, (pid, ids) ∈ rtk ∧ ids.length = min n cap_size := by
  induction cov generalizing rtk with
  | nil => intro pid n h; cases h
  | cons hd tl ih =>
      obtain ⟨p, n0⟩ := hd
      unfold records_to_keep at hrtk
      cases hf : pr_find precs p with
      | none => simp only [hf] at hrtk; cases hrtk
      | some E =>
          simp only [hf] at hrtk
          cases hn : n_atom_records sample method cap_size n0 E with
          | nil => simp only [hn] at hrtk; cases hrtk
          | cons e es =>
              simp only [hn] at hrtk
              cases hrec : records_to_keep sample method cap_size tl precs with
              | error err => simp only [hrec] at hrtk; cases hrtk
              | ok r =>
                  simp only [hrec, Except.ok.injEq] at hrtk
                  subst hrtk
                  intro pid n hmem
                  rcases List.mem_cons.mp hmem with heq | htl
                  · obtain ⟨rfl, rfl⟩ := Prod.mk.injEq .. ▸ heq
                    refine ⟨(e :: es).map (·.2), List.mem_cons_self .., ?_⟩
                    have hE : E.length = n := by
                      have := hlen pid n (List.mem_cons_self ..)
                      simpa [pr_getD, hf] using this
                    rw [List.length_map, ← hn,
                      n_atom_records_length hE hsample]
                  · obtain ⟨ids, hin, hle⟩ := ih hrec
                      (fun pid n h => hlen pid n (List.mem_cons_of_mem _ h))
                      pid n htl
                    exact ⟨ids, List.mem_cons_of_mem _ hin, hle⟩

/-- C5: after capping, every identifier of the coverage map retains exactly
`min(coverage(identifier), cap_size)` of its `(heavy_atom_count, record_id)`
entries — all of them when coverage is within the cap, exactly `cap_size`
otherwise (for `pick_random`, provided the sampling oracle returns samples
of the requested size, as `random.sample` does). -/
theorem C5_cap_respects_threshold (ff : ForceField) (pts rt : List String)
    (recs : List (Record × Molecule))
    (sample : List (Nat × String) → Nat → List (Nat × String))
    (method : CapMethod) (cap_size : Nat) (cov : Coverage)
    (precs : PRecords) (rtk : List (String × List String))
    (hgpd : get_parameter_distribution ff pts rt recs = .ok (cov, precs))
    (hsample : method = .pick_random →
      ∀ l k, k ≤ l.length → (sample l k).length = k)
    (hrtk : records_to_keep sample method cap_size cov precs = .ok rtk) :
    ∀ pid n, (pid, n) ∈ cov →
      ∃ ids, (pid, ids) ∈ rtk ∧ ids.length = min n cap_size := by
  apply records_to_keep_spec hrtk hsample
  intro pid n hmem
  rw [gpd_pr hgpd pid, ← gpd_cov hgpd pid]
  exact cov_count_eq_of_mem (gpd_inv hgpd).2 hmem

/-- The labeler of the end-to-end scenario: every molecule has one
proper-torsion site `0-1-2-3` assigned to `t1`. -/
def ff_t1 : ForceField :=
  ⟨fun _ pt => if pt = "ProperTorsions" then [([0, 1, 2, 3], "t1")] else [],
    fun _ => []⟩

/-- A scan record named `rid` over a hydrogen-free molecule with `n`
(heavy) atoms and no bonds. -/
def scenario_entry (rid : String) (n : Nat) : DSEntry :=
  ⟨.torsiondrive rid [(0, 1, 2, 3)], ⟨List.replicate n 6, []⟩⟩

/-- The end-to-end scenario dataset: seven torsion-scan records touching
`t1` with heavy-atom counts `[3, 5, 5, 7, 9, 9, 12]`. -/
def scenario_dataset : Dataset :=
  ⟨[("a", [scenario_entry "r1" 3, scenario_entry "r2" 5,
    scenario_entry "r3" 5, scenario_entry "r4" 7, scenario_entry "r5" 9,
    scenario_entry "r6" 9, scenario_entry "r7" 12])]⟩

/-- A deterministic stand-in for the `random.sample` oracle. -/
def take_sample : List (Nat × String) → Nat → List (Nat × String) :=
  fun l k => l.take k

/-- Witness for `C5_cap_respects_threshold` on the end-to-end scenario:
`t1` has coverage 7 and, with `cap_size = 3` and `pick_heavy`, retains
exactly `min 7 3 = 3` records. -/
theorem C5_cap_respects_threshold_witness :
    ∃ ids, ("t1", ids) ∈ [("t1", ["r7", "r5", "r6"])] ∧
      ids.length = min 7 3 :=
  C5_cap_respects_threshold ff_t1 ["ProperTorsions"] []
    scenario_dataset.to_records take_sample .pick_heavy 3 [("t1", 7)]
    [("t1", [(3, "r1"), (5, "r2"), (5, "r3"), (7, "r4"), (9, "r5"),
      (9, "r6"), (12, "r7")])]
    [("t1", ["r7", "r5", "r6"])] (by decide)
    (fun h => absurd h (by decide)) (by decide) "t1" 7 (by decide)

/-! ### C10: the parameter selector -/

/-- C10: a pattern appears in the selector's output for a parameter type
exactly when some identifier of the coverage map has coverage at least
`min_coverage` and the schema resolves it (its handler rule list filtered by
the identifier is nonempty, the pattern being the first match's); an
identifier below the threshold or one the schema cannot resolve is skipped
silently — the selector still returns a value rather than raising. -/
theorem C10_selector_threshold (ff : ForceField)
    (parameter_types rt : List String) (recs : List (Record × Molecule))
    (min_coverage : Nat) (cov : Coverage) (precs : PRecords)
    (out : List (String × List String))
    (hgpd : get_parameter_distribution ff parameter_types rt recs =
      .ok (cov, precs))
    (hsel : select_parameters ff parameter_types rt recs min_coverage =
      .ok out) :
    (∀ pt ∈ parameter_types, (pt, select_for ff cov min_coverage pt) ∈ out)
    ∧ ∀ pt s, s ∈ select_for ff cov min_coverage pt ↔
        ∃ pid n, (pid, n) ∈ cov ∧ min_coverage ≤ n ∧
          ∃ p rest, (ff.handlers pt).filter (fun q => q.id == pid) =
            p :: rest ∧ p.smirks = s := by
  constructor
  · intro pt hpt
    unfold select_parameters at hsel
    rw [hgpd] at hsel
    obtain rfl := (Except.ok.inj hsel).symm
    exact List.mem_map.mpr ⟨pt, hpt, rfl⟩
  · intro pt s
    unfold select_for
    rw [List.mem_filterMap]
    constructor
    · rintro ⟨⟨pid, n⟩, hmem, hf⟩
      by_cases hlt : n < min_coverage
      · simp [hlt] at hf
      · rw [if_neg hlt] at hf
        cases hfil : (ff.handlers pt).filter (fun q => q.id == pid) with
        | nil => rw [hfil] at hf; cases hf
        | cons p ps =>
            rw [hfil] at hf
            exact ⟨pid, n, hmem, Nat.le_of_not_lt hlt, p, ps, hfil,
              Option.some.inj hf⟩
    · rintro ⟨pid, n, hmem, hge, p, ps, hfil, hs⟩
      refine ⟨(pid, n), hmem, ?_⟩
      rw [if_neg (Nat.not_lt.mpr hge), hfil]
      exact congrArg some hs

/-- The schema/labeler of the selector witness: `b1` resolves to
`"[#6:1]-[#6:2]"`, `b2` and `b3` resolve to nothing; a molecule of `n ≤ 5`
atoms exercises `b1`, of `n ≤ 4` atoms `b2`, and every molecule `b3`. -/
def ff_sel : ForceField :=
  ⟨fun m pt => if pt = "Bonds" then
      (if m.atoms.length ≤ 5 then [([0, 1], "b1")] else []) ++
      (if m.atoms.length ≤ 4 then [([1, 2], "b2")] else []) ++
      [([2, 3], "b3")]
    else [],
   fun pt => if pt = "Bonds" then [⟨"b1", "[#6:1]-[#6:2]"⟩] else []⟩

/-- Seven point records over all-carbon molecules of 1..7 atoms; with
`ff_sel` the coverage comes out as `b1 ↦ 5`, `b2 ↦ 4`, `b3 ↦ 7`. -/
def sel_records : List (Record × Molecule) :=
  (List.range 7).map (fun i =>
    (.optimization ("s" ++ toString (i + 1)), ⟨List.replicate (i + 1) 6, []⟩))

/-- Witness for `C10_selector_threshold`, with `min_coverage = 5` on
`sel_records`: the resolvable identifier `b1` with coverage exactly 5 is
selected, and the single selected pattern list shows that `b2` (coverage 4)
and the unresolvable `b3` (coverage 7) are skipped silently while the
selector still returns a value. -/
theorem C10_selector_threshold_witness :
    ("Bonds", select_for ff_sel [("b1", 5), ("b2", 4), ("b3", 7)] 5 "Bonds")
      ∈ [("Bonds", ["[#6:1]-[#6:2]"])] ∧
    "[#6:1]-[#6:2]" ∈
      select_for ff_sel [("b1", 5), ("b2", 4), ("b3", 7)] 5 "Bonds" := by
  have h := C10_selector_threshold ff_sel ["Bonds"] [] sel_records 5
    [("b1", 5), ("b2", 4), ("b3", 7)]
    [("b1", [(1, "s1"), (2, "s2"), (3, "s3"), (4, "s4"), (5, "s5")]),
     ("b2", [(1, "s1"), (2, "s2"), (3, "s3"), (4, "s4")]),
     ("b3", [(1, "s1"), (2, "s2"), (3, "s3"), (4, "s4"), (5, "s5"),
       (6, "s6"), (7, "s7")])]
    [("Bonds", select_for ff_sel [("b1", 5), ("b2", 4), ("b3", 7)] 5 "Bonds")]
    (by decide) (by decide)
  refine ⟨h.1 "Bonds" (List.mem_singleton_self _), ?_⟩
  exact (h.2 "Bonds" "[#6:1]-[#6:2]").mpr
    ⟨"b1", 5, by decide, Nat.le_refl 5, ⟨"b1", "[#6:1]-[#6:2]"⟩, [],
      by decide, rfl⟩

/-! ### C6: the deterministic capping policies -/

/-- The per-parameter entry list of the end-to-end scenario (heavy-atom
counts `[3, 5, 5, 7, 9, 9, 12]` in insertion order). -/
def scenario_entries : List (Nat × String) :=
  [(3, "r1"), (5, "r2"), (5, "r3"), (7, "r4"), (9, "r5"), (9, "r6"),
    (12, "r7")]

/-- C6: when the entry list is longer than `cap_size`, `pick_heavy` keeps
`cap_size` entries such that every discarded entry's heavy-atom count is at
most every kept one's (the stable descending sort puts ties in original
insertion order), and `pick_light` dually; on the end-to-end scenario with
counts `[3, 5, 5, 7, 9, 9, 12]` and `cap_size = 3`, `pick_heavy` retains
exactly the entries `[(12, r7), (9, r5), (9, r6)]` (ties `r5`, `r6` in
original order) and `pick_light` exactly `[(3, r1), (5, r2), (5, r3)]`. -/
theorem C6_pick_policies :
    (∀ (E : List (Nat × String)) (cap_size : Nat), cap_size < E.length →
      ((E.insertionSort by_fst_ge).take cap_size).length = cap_size ∧
      ((E.insertionSort by_fst_ge).take cap_size ++
        (E.insertionSort by_fst_ge).drop cap_size).Perm E ∧
      (∀ x ∈ (E.insertionSort by_fst_ge).take cap_size,
       ∀ y ∈ (E.insertionSort by_fst_ge).drop cap_size, y.1 ≤ x.1))
    ∧ (∀ (E : List (Nat × String)) (cap_size : Nat), cap_size < E.length →
      ((E.insertionSort by_fst_le).take cap_size).length = cap_size ∧
      ((E.insertionSort by_fst_le).take cap_size ++
        (E.insertionSort by_fst_le).drop cap_size).Perm E ∧
      (∀ x ∈ (E.insertionSort by_fst_le).take cap_size,
       ∀ y ∈ (E.insertionSort by_fst_le).drop cap_size, x.1 ≤ y.1))
    ∧ n_atom_records take_sample .pick_heavy 3 7 scenario_entries =
        [(12, "r7"), (9, "r5"), (9, "r6")]
    ∧ n_atom_records take_sample .pick_light 3 7 scenario_entries =
        [(3, "r1"), (5, "r2"), (5, "r3")]
    ∧ cap_retained_ids ff_t1 take_sample 3 .pick_heavy []
        scenario_dataset = .ok ["r7", "r5", "r6"]
    ∧ cap_retained_ids ff_t1 take_sample 3 .pick_light []
        scenario_dataset = .ok ["r1", "r2", "r3"] := by
  refine ⟨?_, ?_, by decide, by decide, by decide, by decide⟩
  · intro E cap_size hlt
    refine ⟨?_, ?_, ?_⟩
    · simp [List.length_take, List.length_insertionSort, Nat.le_of_lt hlt,
        Nat.min_eq_left]
    · rw [List.take_append_drop]
      exact List.perm_insertionSort _ E
    · have hs : (E.insertionSort by_fst_ge).Sorted by_fst_ge :=
        List.sorted_insertionSort _ E
      rw [← List.take_append_drop cap_size (E.insertionSort by_fst_ge)]
        at hs
      exact fun x hx y hy =>
        ((List.pairwise_append.mp hs).2.2 x hx y hy : by_fst_ge x y)
  · intro E cap_size hlt
    refine ⟨?_, ?_, ?_⟩
    · simp [List.length_take, List.length_insertionSort, Nat.le_of_lt hlt,
        Nat.min_eq_left]
    · rw [List.take_append_drop]
      exact List.perm_insertionSort _ E
    · have hs : (E.insertionSort by_fst_le).Sorted by_fst_le :=
        List.sorted_insertionSort _ E
      rw [← List.take_append_drop cap_size (E.insertionSort by_fst_le)]
        at hs
      exact fun x hx y hy =>
        ((List.pairwise_append.mp hs).2.2 x hx y hy : by_fst_le x y)

/-- Witness for `C6_pick_policies` on the scenario entry list with
`cap_size = 3 < 7`: the kept prefix has length 3. -/
theorem C6_pick_policies_witness :
    ((scenario_entries.insertionSort by_fst_ge).take 3).length = 3 ∧
    ((scenario_entries.insertionSort by_fst_le).take 3).length = 3 :=
  ⟨(C6_pick_policies.1 scenario_entries 3 (by decide)).1,
   (C6_pick_policies.2.1 scenario_entries 3 (by decide)).1⟩

/-! ### C9: the pruned dataset -/

/-- An entry whose record `x9` exercises no parameter (its one-atom molecule
gets no label from `ff_twokey`). -/
def e_x9 : DSEntry := ⟨.optimization "x9", ⟨[6], []⟩⟩

/-- A labeler assigning `t1` to the torsion `0-1-2-3` of three-atom
molecules only. -/
def ff_twokey : ForceField :=
  ⟨fun m pt =>
    if pt = "ProperTorsions" ∧ m.atoms.length = 3
      then [([0, 1, 2, 3], "t1")] else [],
   fun _ => []⟩

/-- A dataset whose entries live under two server addresses. -/
def ds_twokey : Dataset :=
  ⟨[("a", [scenario_entry "r1" 3]), ("b", [e_x9])]⟩

/-- Counterexample to C9 as stated: the capper filters only the entry list
of the *first* address (`list(dataset.entries.keys())[0]`), so the record
`x9` under the second address survives although its id is retained for no
identifier — "every record whose id is retained for no identifier is
removed" fails on a multi-address dataset. -/
theorem C9_counterexample :
    cap_retained_ids ff_twokey take_sample 3 .pick_heavy [] ds_twokey =
      .ok ["r1"] ∧
    cap_torsions_per_parameter ff_twokey take_sample 3 .pick_heavy []
      ds_twokey = .ok ⟨[("a", [scenario_entry "r1" 3]), ("b", [e_x9])]⟩ ∧
    e_x9.record.id ∉ ["r1"] ∧
    e_x9 ∈ [e_x9] := by
  refine ⟨by decide, ?_, by decide, List.mem_singleton_self _⟩
  decide

/-- C9 (amended to the single-address case the code supports): for a
dataset with one entry list, the capper returns that dataset with the entry
list filtered to exactly the records whose id is in the retained-record
list: a record is kept iff it was present and its id is retained for at
least one identifier, and nothing else of the dataset changes. -/
theorem C9_single_key_filter (ff : ForceField)
    (sample : List (Nat × String) → Nat → List (Nat × String))
    (cap_size : Nat) (method : CapMethod) (rt : List String) (key : String)
    (l : List DSEntry) (ids : List String)
    (hids : cap_retained_ids ff sample cap_size method rt ⟨[(key, l)]⟩ =
      .ok ids) :
    cap_torsions_per_parameter ff sample cap_size method rt ⟨[(key, l)]⟩ =
      .ok ⟨[(key, l.filter (fun e => decide (e.record.id ∈ ids)))]⟩ ∧
    ∀ e, e ∈ l.filter (fun e => decide (e.record.id ∈ ids)) ↔
      e ∈ l ∧ e.record.id ∈ ids := by
  constructor
  · unfold cap_torsions_per_parameter
    rw [hids]
  · intro e
    rw [List.mem_filter]
    simp

/-- Witness for `C9_single_key_filter` on the end-to-end scenario dataset:
with `pick_heavy` and `cap_size = 3` the retained ids are `r7, r5, r6`, and
the returned dataset is the source with its single entry list filtered down
to those records. -/
theorem C9_single_key_filter_witness :
    cap_torsions_per_parameter ff_t1 take_sample 3 .pick_heavy []
      scenario_dataset = .ok ⟨[("a",
        [scenario_entry "r1" 3, scenario_entry "r2" 5, scenario_entry "r3" 5,
         scenario_entry "r4" 7, scenario_entry "r5" 9, scenario_entry "r6" 9,
         scenario_entry "r7" 12].filter
          (fun e => decide (e.record.id ∈ ["r7", "r5", "r6"])))]⟩ ∧
    (scenario_entry "r5" 9 ∈
      [scenario_entry "r1" 3, scenario_entry "r2" 5, scenario_entry "r3" 5,
       scenario_entry "r4" 7, scenario_entry "r5" 9, scenario_entry "r6" 9,
       scenario_entry "r7" 12].filter
        (fun e => decide (e.record.id ∈ ["r7", "r5", "r6"])) ↔
      scenario_entry "r5" 9 ∈
        [scenario_entry "r1" 3, scenario_entry "r2" 5, scenario_entry "r3" 5,
         scenario_entry "r4" 7, scenario_entry "r5" 9, scenario_entry "r6" 9,
         scenario_entry "r7" 12] ∧
      (scenario_entry "r5" 9).record.id ∈ ["r7", "r5", "r6"]) := by
  have h := C9_single_key_filter ff_t1 take_sample 3 .pick_heavy [] "a"
    [scenario_entry "r1" 3, scenario_entry "r2" 5, scenario_entry "r3" 5,
     scenario_entry "r4" 7, scenario_entry "r5" 9, scenario_entry "r6" 9,
     scenario_entry "r7" 12] ["r7", "r5", "r6"] (by decide)
  exact ⟨h.1, h.2 (scenario_entry "r5" 9)⟩

/-! ### C7 groundwork: shape of one record's label output -/

theorem site_contribution_shape {rt : List String} {r : Record}
    {m : Molecule} {s : Site} {t : Tag}
    (h : site_contribution rt r m s = .ok (some t)) :
    t.2.1 = r.id ∧ t.2.2 = n_heavy_atoms m := by
  cases r with
  | optimization rid =>
      simp only [site_contribution, Except.ok.injEq, Option.some.injEq] at h
      subst h
      exact ⟨rfl, rfl⟩
  | torsiondrive rid dih =>
      cases dih with
      | nil => simp [site_contribution] at h
      | cons d0 dtl =>
          simp only [site_contribution] at h
          split_ifs at h with h1 h2
          · simp at h
          · simp only [Except.ok.injEq, Option.some.injEq] at h
            subst h
            exact ⟨rfl, rfl⟩
          · cases hc : check_torsion_is_in_ring m s.1 with
            | error e => rw [hc] at h; simp at h
            | ok b =>
                rw [hc] at h
                cases b
                · simp only [Except.ok.injEq, Option.some.injEq] at h
                  subst h
                  exact ⟨rfl, rfl⟩
                · simp at h

theorem label_sites_from_shape {rt : List String} {r : Record}
    {m : Molecule} {l : List Site} {acc out : List Tag}
    (h : label_sites_from rt r m acc l = .ok out)
    (hacc : ∀ t ∈ acc, t.2.1 = r.id ∧ t.2.2 = n_heavy_atoms m) :
    ∀ t ∈ out, t.2.1 = r.id ∧ t.2.2 = n_heavy_atoms m := by
  induction l generalizing acc with
  | nil =>
      simp only [label_sites_from, Except.ok.injEq] at h
      exact h ▸ hacc
  | cons s rest ih =>
      unfold label_sites_from at h
      cases hc : site_contribution rt r m s with
      | error e => rw [hc] at h; cases h
      | ok o =>
          rw [hc] at h
          cases o with
          | none => exact ih h hacc
          | some u =>
              refine ih h ?_
              intro t ht
              unfold insert_tag at ht
              split at ht
              · exact hacc t ht
              · rcases List.mem_append.mp ht with h1 | h1
                · exact hacc t h1
                · obtain rfl := List.mem_singleton.mp h1
                  exact site_contribution_shape hc

theorem label_shape {rt : List String} {r : Record} {m : Molecule}
    {lbls : String → List Site} {pts : List String} {out : List Tag}
    (h : label_and_tag_ids rt r m lbls pts = .ok out) :
    ∀ t ∈ out, t.2.1 = r.id ∧ t.2.2 = n_heavy_atoms m :=
  label_sites_from_shape h (by intro t ht; cases ht)

theorem insert_tag_nodup {acc : List Tag} (h : acc.Nodup) (t : Tag) :
    (insert_tag acc t).Nodup := by
  unfold insert_tag
  split
  · exact h
  · rw [List.nodup_append]
    exact ⟨h, List.nodup_singleton _,
      by simpa [List.disjoint_singleton] using ‹t ∉ acc›⟩

theorem label_sites_from_nodup {rt : List String} {r : Record}
    {m : Molecule} {l : List Site} {acc out : List Tag}
    (h : label_sites_from rt r m acc l = .ok out) (hacc : acc.Nodup) :
    out.Nodup := by
  induction l generalizing acc with
  | nil =>
      simp only [label_sites_from, Except.ok.injEq] at h
      exact h ▸ hacc
  | cons s rest ih =>
      unfold label_sites_from at h
      cases hc : site_contribution rt r m s with
      | error e => rw [hc] at h; cases h
      | ok o =>
          rw [hc] at h
          cases o with
          | none => exact ih h hacc
          | some u => exact ih h (insert_tag_nodup hacc u)

theorem label_nodup {rt : List String} {r : Record} {m : Molecule}
    {lbls : String → List Site} {pts : List String} {out : List Tag}
    (h : label_and_tag_ids rt r m lbls pts = .ok out) : out.Nodup :=
  label_sites_from_nodup h List.nodup_nil

/-- All elements of a duplicate-free list being equal, it has at most one
element. -/
theorem length_le_one_of_nodup_of_all_eq {α : Type} (a : α) {l : List α}
    (hnd : l.Nodup) (hall : ∀ x ∈ l, x = a) : l.length ≤ 1 := by
  cases l with
  | nil => simp
  | cons x xs =>
      cases xs with
      | nil => simp
      | cons y ys =>
          exfalso

          have hx : x = a := hall x (by simp)
          have hy : y = a := hall y (by simp)
          rw [List.nodup_cons] at hnd
          exact hnd.1 (by rw [hx, hy]; simp)

theorem record_entries_snd {ff : ForceField} {pts rt : List String}
    (rm : Record × Molecule) (q : String) :
    ∀ e ∈ record_entries ff pts rt rm q, e.2 = rm.1.id := by
  intro e he
  unfold record_entries at he
  cases hl : label_and_tag_ids rt rm.1 rm.2 (ff.label rm.2) pts with
  | error err => rw [hl] at he; cases he
  | ok tags =>
      rw [hl] at he
      unfold tag_entries at he
      obtain ⟨t, ht, rfl⟩ := List.mem_map.mp he
      exact (label_shape hl t (List.mem_of_mem_filter ht)).1

theorem record_entries_len (ff : ForceField) (pts rt : List String)
    (rm : Record × Molecule) (q : String) :
    (record_entries ff pts rt rm q).length ≤ 1 := by
  unfold record_entries
  cases hl : label_and_tag_ids rt rm.1 rm.2 (ff.label rm.2) pts with
  | error err => simp
  | ok tags =>
      unfold tag_entries
      rw [List.length_map]
      apply length_le_one_of_nodup_of_all_eq
        ((q, rm.1.id, n_heavy_atoms rm.2) : Tag)
        ((label_nodup hl).filter _)
      intro t ht
      have hq : t.1 = q := by
        have := List.of_mem_filter ht
        simpa using this
      have hshape := label_shape hl t (List.mem_of_mem_filter ht)
      obtain ⟨t1, t2, t3⟩ := t
      simp only at hq hshape
      rw [hq, hshape.1, hshape.2]

/-- One record's contribution to identifier `q` is `[]` or the singleton
`[(n_heavy, record_id)]`. -/
theorem record_entries_eq_nil_or_singleton (ff : ForceField)
    (pts rt : List String) (rm : Record × Molecule) (q : String) :
    record_entries ff pts rt rm q = [] ∨
      ∃ nh, record_entries ff pts rt rm q = [(nh, rm.1.id)] := by
  cases hre : record_entries ff pts rt rm q with
  | nil => exact Or.inl rfl
  | cons e es =>
      right
      have hlen := record_entries_len ff pts rt rm q
      rw [hre] at hlen
      have hes : es = [] := by
        cases es with
        | nil => rfl
        | cons _ _ => simp at hlen
      subst hes
      have hsnd : e.2 = rm.1.id :=
        record_entries_snd rm q e (by rw [hre]; simp)
      exact ⟨e.1, by rw [← hsnd]⟩

/-! ### C7 groundwork: aggregation over a filtered dataset -/

theorem record_entries_filter {ff : ForceField} {pts rt : List String}
    (U : List String) (rm : Record × Molecule) (q : String) :
    (record_entries ff pts rt rm q).filter (fun e => decide (e.2 ∈ U)) =
      if rm.1.id ∈ U then record_entries ff pts rt rm q else [] := by
  split
  · apply List.filter_eq_self.mpr
    intro e he
    rw [record_entries_snd rm q e he]
    simpa
  · apply List.filter_eq_nil_iff.mpr
    intro e he
    rw [record_entries_snd rm q e he]
    simpa

theorem dataset_entries_append (ff : ForceField) (pts rt : List String)
    (A B : List (Record × Molecule)) (q : String) :
    dataset_entries_for ff pts rt (A ++ B) q =
      dataset_entries_for ff pts rt A q ++
        dataset_entries_for ff pts rt B q := by
  simp [dataset_entries_for]

theorem dataset_entries_filter (ff : ForceField) (pts rt : List String)
    (U : List String) (A : List (Record × Molecule)) (q : String) :
    dataset_entries_for ff pts rt
        (A.filter (fun rm => decide (rm.1.id ∈ U))) q =
      (dataset_entries_for ff pts rt A q).filter
        (fun e => decide (e.2 ∈ U)) := by
  induction A with
  | nil => simp [dataset_entries_for]
  | cons rm rest ih =>
      by_cases hm : rm.1.id ∈ U
      · rw [List.filter_cons_of_pos (by simpa using hm)]
        simp only [dataset_entries_for, List.flatMap_cons,
          List.filter_append]
        rw [record_entries_filter U rm q, if_pos hm]
        exact congrArg _ ih
      · rw [List.filter_cons_of_neg (by simpa using hm)]
        simp only [dataset_entries_for, List.flatMap_cons,
          List.filter_append]
        rw [record_entries_filter U rm q, if_neg hm]
        simpa using ih

theorem dataset_entries_map_snd_sublist (ff : ForceField)
    (pts rt : List String) (recs : List (Record × Molecule)) (q : String) :
    (dataset_entries_for ff pts rt recs q).map (·.2) <+
      recs.map (fun rm => rm.1.id) := by
  induction recs with
  | nil => simp [dataset_entries_for]
  | cons rm rest ih =>
      simp only [dataset_entries_for, List.flatMap_cons, List.map_append,
        List.map_cons]
      rcases record_entries_eq_nil_or_singleton ff pts rt rm q
        with hre | ⟨nh, hre⟩
      · rw [hre]
        exact ih.trans (List.sublist_cons_self _ _)
      · rw [hre]
        exact List.Sublist.cons₂ _ ih

theorem dataset_entries_nodup (ff : ForceField) (pts rt : List String)
    (recs : List (Record × Molecule)) (q : String)
    (hnd : (recs.map (fun rm => rm.1.id)).Nodup) :
    (dataset_entries_for ff pts rt recs q).Nodup :=
  ((dataset_entries_map_snd_sublist ff pts rt recs q).nodup hnd).of_map _

/-- Deterministic capping of an empty entry list is empty. -/
theorem n_atom_records_nil
    (sample : List (Nat × String) → Nat → List (Nat × String))
    {method : CapMethod} (hm : method ≠ .pick_random) (cap_size n : Nat) :
    n_atom_records sample method cap_size n [] = [] := by
  unfold n_atom_records
  cases method with
  | pick_random => exact absurd rfl hm
  | pick_heavy => split <;> simp [List.insertionSort]
  | pick_light => split <;> simp [List.insertionSort]

/-! ### C7 groundwork: stability of the insertion sort -/

theorem insertionSort_sublist_mono {α : Type} {r : α → α → Prop}
    [DecidableRel r] [IsTotal α r] [IsTrans α r] {l₁ l₂ : List α}
    (h : l₁ <+ l₂) :
    l₁.insertionSort r <+ l₂.insertionSort r := by
  induction h with
  | slnil => exact List.Sublist.refl _
  | cons a h ih =>
      exact ih.trans (List.sublist_orderedInsert a _)
  | cons₂ a h ih =>
      exact List.Sublist.orderedInsert_sublist a ih
        (List.sorted_insertionSort r _)

/-- A list sandwiched between `S ++ R` (as a sublist) and `S` (as a subset),
with `S ++ R` duplicate-free, is `S` followed by a sublist of `R`. -/
theorem eq_append_of_sublist_of_subset {α : Type} [DecidableEq α] :
    ∀ {S R Z : List α}, Z <+ S ++ R → (∀ x ∈ S, x ∈ Z) →
      (S ++ R).Nodup → ∃ T, Z = S ++ T ∧ T <+ R := by
  intro S
  induction S with
  | nil =>
      intro R Z hsub _ _
      exact ⟨Z, rfl, by simpa using hsub⟩
  | cons s S₁ ih =>
      intro R Z hsub hmem hnd
      rw [List.cons_append, List.nodup_cons] at hnd
      cases hsub with
      | cons _ h =>
          exact absurd (h.subset (hmem s (List.mem_cons_self ..)))
            hnd.1
      | cons₂ _ h =>
          rename_i Z₁
          obtain ⟨T, rfl, hT⟩ := ih h
            (fun x hx => by
              have hxZ := hmem x (List.mem_cons_of_mem _ hx)
              rcases List.mem_cons.mp hxZ with rfl | hxZ₁
              · exact absurd (List.mem_append_left R hx) hnd.1
              · exact hxZ₁)
            hnd.2
          exact ⟨T, rfl, hT⟩

/-- Core stability argument: keep-all-or-take-`k`-of-the-stable-sort
selection is unchanged (up to permutation) when the list is thinned to a
sublist `EA.filter P ++ EB` that still contains every selected element
(`P` holds on the whole selection), provided the list has no duplicates. -/
theorem generic_sel_perm (r : (Nat × String) → (Nat × String) → Prop)
    [DecidableRel r] [IsTotal (Nat × String) r] [IsTrans (Nat × String) r]
    {EA EB : List (Nat × String)} {P : (Nat × String) → Bool} {k : Nat}
    (hnd : (EA ++ EB).Nodup)
    (hP : ∀ x ∈ (if (EA ++ EB).length ≤ k then EA ++ EB
      else ((EA ++ EB).insertionSort r).take k), P x = true) :
    (if (EA.filter P ++ EB).length ≤ k then EA.filter P ++ EB
      else ((EA.filter P ++ EB).insertionSort r).take k).Perm
      (if (EA ++ EB).length ≤ k then EA ++ EB
        else ((EA ++ EB).insertionSort r).take k) := by
  have hsubE : EA.filter P ++ EB <+ EA ++ EB :=
    (List.filter_sublist EA).append (List.Sublist.refl EB)
  by_cases hle : (EA ++ EB).length ≤ k
  · have hP' : ∀ x ∈ EA ++ EB, P x = true :=
      fun x hx => hP x (by rw [if_pos hle]; exact hx)
    have hEA : EA.filter P = EA := List.filter_eq_self.mpr
      (fun a ha => hP' a (List.mem_append_left _ ha))
    rw [hEA]
  · have hPS : ∀ x ∈ ((EA ++ EB).insertionSort r).take k, P x = true :=
      fun x hx => hP x (by rw [if_neg hle]; exact hx)
    have hlenS : (((EA ++ EB).insertionSort r).take k).length = k := by
      simp only [List.length_take, List.length_insertionSort]
      omega
    have hndE : ((EA ++ EB).insertionSort r).Nodup :=
      (List.perm_insertionSort r _).nodup_iff.mpr hnd
    have hndSR : ((((EA ++ EB).insertionSort r).take k) ++
        (((EA ++ EB).insertionSort r).drop k)).Nodup := by
      rw [List.take_append_drop]; exact hndE
    have hZsub : (EA.filter P ++ EB).insertionSort r <+
        (((EA ++ EB).insertionSort r).take k) ++
          (((EA ++ EB).insertionSort r).drop k) := by
      rw [List.take_append_drop]; exact insertionSort_sublist_mono hsubE
    have hSsubZ : ∀ x ∈ ((EA ++ EB).insertionSort r).take k,
        x ∈ (EA.filter P ++ EB).insertionSort r := by
      intro x hx
      have hxE : x ∈ EA ++ EB :=
        (List.mem_insertionSort r).mp ((List.take_sublist _ _).subset hx)
      apply (List.mem_insertionSort r).mpr
      rcases List.mem_append.mp hxE with h | h
      · exact List.mem_append_left _ (List.mem_filter.mpr ⟨h, hPS x hx⟩)
      · exact List.mem_append_right _ h
    obtain ⟨T, hZ, _⟩ :=
      eq_append_of_sublist_of_subset hZsub hSsubZ hndSR
    by_cases hle' : (EA.filter P ++ EB).length ≤ k
    · rw [if_pos hle', if_neg hle]
      have hlen := congrArg List.length hZ
      simp only [List.length_insertionSort, List.length_append, hlenS]
        at hlen
      simp only [List.length_append] at hle'
      have hTnil : T = [] := List.length_eq_zero.mp (by omega)
      subst hTnil
      rw [List.append_nil] at hZ
      have hperm := List.perm_insertionSort r (EA.filter P ++ EB)
      rw [hZ] at hperm
      exact hperm.symm
    · rw [if_neg hle', if_neg hle, hZ, List.take_left' hlenS]

/-- Capping selection with the list's own length as the count, for a
deterministic method, is stable under thinning the list to
`EA.filter P ++ EB` when `P` holds on the whole selection. -/
theorem nar_perm_of_method
    {sample : List (Nat × String) → Nat → List (Nat × String)}
    {method : CapMethod} {cap_size : Nat}
    (hmethod : method ≠ .pick_random)
    {EA EB : List (Nat × String)} {P : (Nat × String) → Bool}
    (hnd : (EA ++ EB).Nodup)
    (hP : ∀ x ∈ n_atom_records sample method cap_size
      ((EA ++ EB).length) (EA ++ EB), P x = true) :
    (n_atom_records sample method cap_size ((EA.filter P ++ EB).length)
      (EA.filter P ++ EB)).Perm
      (n_atom_records sample method cap_size ((EA ++ EB).length)
        (EA ++ EB)) := by
  cases method with
  | pick_random => exact absurd rfl hmethod
  | pick_heavy =>
      simp only [n_atom_records] at hP ⊢
      exact generic_sel_perm by_fst_ge hnd hP
  | pick_light =>
      simp only [n_atom_records] at hP ⊢
      exact generic_sel_perm by_fst_le hnd hP

/-! ### C7 groundwork: the `records_to_keep` dictionary, explicitly -/

theorem records_to_keep_eq
    {sample : List (Nat × String) → Nat → List (Nat × String)}
    {method : CapMethod} {cap_size : Nat} {cov : Coverage}
    {precs : PRecords} {rtk : List (String × List String)}
    (hrtk : records_to_keep sample method cap_size cov precs = .ok rtk) :
    rtk = cov.map (fun pc => (pc.1,
      (n_atom_records sample method cap_size pc.2
        (pr_getD precs pc.1)).map (·.2))) := by
  induction cov generalizing rtk with
  | nil =>
      simp only [records_to_keep, Except.ok.injEq] at hrtk
      simp [← hrtk]
  | cons hd tl ih =>
      obtain ⟨p, n0⟩ := hd
      unfold records_to_keep at hrtk
      cases hf : pr_find precs p with
      | none => simp only [hf] at hrtk; cases hrtk
      | some E =>
          simp only [hf] at hrtk
          cases hn : n_atom_records sample method cap_size n0 E with
          | nil => simp only [hn] at hrtk; cases hrtk
          | cons e es =>
              simp only [hn] at hrtk
              cases hrec : records_to_keep sample method cap_size tl precs
                  with
              | error err => simp only [hrec] at hrtk; cases hrtk
              | ok r =>
                  simp only [hrec, Except.ok.injEq] at hrtk
                  subst hrtk
                  have hE : pr_getD precs p = E := by simp [pr_getD, hf]
                  rw [ih hrec]
                  simp [hE, hn]

theorem records_to_keep_sel_ne_nil
    {sample : List (Nat × String) → Nat → List (Nat × String)}
    {method : CapMethod} {cap_size : Nat} {cov : Coverage}
    {precs : PRecords} {rtk : List (String × List String)}
    (hrtk : records_to_keep sample method cap_size cov precs = .ok rtk) :
    ∀ pc ∈ cov, n_atom_records sample method cap_size pc.2
      (pr_getD precs pc.1) ≠ [] := by
  induction cov generalizing rtk with
  | nil => intro pc h; cases h
  | cons hd tl ih =>
      obtain ⟨p, n0⟩ := hd
      unfold records_to_keep at hrtk
      cases hf : pr_find precs p with
      | none => simp only [hf] at hrtk; cases hrtk
      | some E =>
          simp only [hf] at hrtk
          cases hn : n_atom_records sample method cap_size n0 E with
          | nil => simp only [hn] at hrtk; cases hrtk
          | cons e es =>
              simp only [hn] at hrtk
              cases hrec : records_to_keep sample method cap_size tl precs
                  with
              | error err => simp only [hrec] at hrtk; cases hrtk
              | ok r =>
                  intro pc hpc
                  rcases List.mem_cons.mp hpc with rfl | htl
                  · have hE : pr_getD precs p = E := by
                      simp [pr_getD, hf]
                    simp only [hE, hn]
                    simp
                  · exact ih hrec pc htl

theorem cov_count_eq_zero_of_not_mem {cov : Coverage} {q : String}
    (h : q ∉ cov.map Prod.fst) : cov_count cov q = 0 := by
  induction cov with
  | nil => rfl
  | cons hd tl ih =>
      obtain ⟨p, n⟩ := hd
      have hp : ¬ p = q := by
        intro hpq
        exact h (by simp [hpq])
      have htl : q ∉ tl.map Prod.fst := by
        intro hq
        exact h (by simp [hq])
      simp only [cov_count, if_neg hp]
      exact ih htl

theorem bump_pos {cov : Coverage} (h : ∀ pn ∈ cov, 1 ≤ pn.2)
    (pid : String) : ∀ pn ∈ bump cov pid, 1 ≤ pn.2 := by
  induction cov with
  | nil =>
      intro pn hpn
      rw [List.mem_singleton.mp hpn]
  | cons hd tl ih =>
      obtain ⟨p, n⟩ := hd
      intro pn hpn
      unfold bump at hpn
      split at hpn
      · rcases List.mem_cons.mp hpn with h1 | htl
        · rw [h1]
          exact Nat.le_add_left 1 n
        · exact h pn (List.mem_cons_of_mem _ htl)
      · rcases List.mem_cons.mp hpn with h1 | htl
        · rw [h1]
          exact h (p, n) (List.mem_cons_self ..)
        · exact ih (fun x hx => h x (List.mem_cons_of_mem _ hx)) pn htl

theorem add_tags_pos {st : AggState} (h : ∀ pn ∈ st.1, 1 ≤ pn.2)
    (tags : List Tag) : ∀ pn ∈ (add_tags st tags).1, 1 ≤ pn.2 := by
  induction tags generalizing st with
  | nil => exact h
  | cons t ts ih =>
      rw [add_tags_cons]
      exact ih (bump_pos h t.1)

theorem gpd_counts_pos {ff : ForceField} {pts rt : List String}
    {recs : List (Record × Molecule)} {cov : Coverage} {precs : PRecords}
    (h : get_parameter_distribution ff pts rt recs = .ok (cov, precs)) :
    ∀ pn ∈ cov, 1 ≤ pn.2 := by
  suffices H : ∀ (recs : List (Record × Molecule)) (st st' : AggState),
      gpd_from ff pts rt st recs = .ok st' →
      (∀ pn ∈ st.1, 1 ≤ pn.2) → ∀ pn ∈ st'.1, 1 ≤ pn.2 by
    exact H recs ([], []) (cov, precs) h (by intro pn hpn; cases hpn)
  intro recs
  induction recs with
  | nil =>
      intro st st' h hst
      simp only [gpd_from, Except.ok.injEq] at h
      exact h ▸ hst
  | cons rm rest ih =>
      intro st st' h hst
      obtain ⟨r, m⟩ := rm
      unfold gpd_from at h
      cases hl : label_and_tag_ids rt r m (ff.label m) pts with
      | error e => rw [hl] at h; cases h
      | ok tags =>
          rw [hl] at h
          exact ih _ _ h (add_tags_pos hst tags)

/-- The retained-id list is stable under re-running the aggregation and
selection on the dataset thinned to the retained records (first address
part filtered, remainder untouched), for a deterministic method and
duplicate-free record ids. -/
theorem cap_ids_stable (ff : ForceField)
    (sample : List (Nat × String) → Nat → List (Nat × String))
    (cap_size : Nat) (method : CapMethod) (rt : List String)
    (A B : List (Record × Molecule)) (cov cov2 : Coverage)
    (precs precs2 : PRecords) (rtk rtk2 : List (String × List String))
    (hmethod : method ≠ .pick_random)
    (hnodup : ((A ++ B).map (fun rm => rm.1.id)).Nodup)
    (hgpd : get_parameter_distribution ff ["ProperTorsions"] rt (A ++ B) =
      .ok (cov, precs))
    (hrtk : records_to_keep sample method cap_size cov precs = .ok rtk)
    (hgpd2 : get_parameter_distribution ff ["ProperTorsions"] rt
      (A.filter (fun rm => decide (rm.1.id ∈ rtk.flatMap (·.2))) ++ B) =
      .ok (cov2, precs2))
    (hrtk2 : records_to_keep sample method cap_size cov2 precs2 =
      .ok rtk2) :
    ∀ x, x ∈ rtk.flatMap (·.2) ↔ x ∈ rtk2.flatMap (·.2) := by
  have hinv := gpd_inv hgpd
  have hinv2 := gpd_inv hgpd2
  have hprE : ∀ q, pr_getD precs q =
      dataset_entries_for ff ["ProperTorsions"] rt A q ++
        dataset_entries_for ff ["ProperTorsions"] rt B q :=
    fun q => (gpd_pr hgpd q).trans
      (dataset_entries_append ff ["ProperTorsions"] rt A B q)
  have hprE2 : ∀ q, pr_getD precs2 q =
      (dataset_entries_for ff ["ProperTorsions"] rt A q).filter
        (fun e => decide (e.2 ∈ rtk.flatMap (·.2))) ++
      dataset_entries_for ff ["ProperTorsions"] rt B q :=
    fun q => (gpd_pr hgpd2 q).trans
      (by rw [dataset_entries_append, dataset_entries_filter])
  have hcovE : ∀ q, cov_count cov q = (pr_getD precs q).length :=
    fun q => (gpd_cov hgpd q).trans
      (congrArg List.length (gpd_pr hgpd q).symm)
  have hcovE2 : ∀ q, cov_count cov2 q = (pr_getD precs2 q).length :=
    fun q => (gpd_cov hgpd2 q).trans
      (congrArg List.length (gpd_pr hgpd2 q).symm)
  have hndq : ∀ q, (pr_getD precs q).Nodup := by
    intro q
    rw [gpd_pr hgpd q]
    exact dataset_entries_nodup ff ["ProperTorsions"] rt (A ++ B) q hnodup
  have hmem1 : ∀ y, y ∈ rtk.flatMap (·.2) ↔ ∃ pc, pc ∈ cov ∧
      y ∈ (n_atom_records sample method cap_size pc.2
        (pr_getD precs pc.1)).map (·.2) := by
    intro y
    rw [records_to_keep_eq hrtk, List.flatMap_map, List.mem_flatMap]
  have hmem2 : ∀ y, y ∈ rtk2.flatMap (·.2) ↔ ∃ pc, pc ∈ cov2 ∧
      y ∈ (n_atom_records sample method cap_size pc.2
        (pr_getD precs2 pc.1)).map (·.2) := by
    intro y
    rw [records_to_keep_eq hrtk2, List.flatMap_map, List.mem_flatMap]
  have hPsel : ∀ q n, (q, n) ∈ cov →
      ∀ z ∈ n_atom_records sample method cap_size
        ((pr_getD precs q).length) (pr_getD precs q),
      decide (z.2 ∈ rtk.flatMap (·.2)) = true := by
    intro q n hqn z hz
    apply decide_eq_true
    apply (hmem1 z.2).mpr
    refine ⟨(q, n), hqn, ?_⟩
    show z.2 ∈ (n_atom_records sample method cap_size n
      (pr_getD precs q)).map (·.2)
    have hn : n = (pr_getD precs q).length := by
      rw [← hcovE q]
      exact (cov_count_eq_of_mem hinv.2 hqn).symm
    rw [hn]
    exact List.mem_map.mpr ⟨z, hz, rfl⟩
  have hperm : ∀ q n, (q, n) ∈ cov →
      (n_atom_records sample method cap_size
        ((pr_getD precs2 q).length) (pr_getD precs2 q)).Perm
      (n_atom_records sample method cap_size
        ((pr_getD precs q).length) (pr_getD precs q)) := by
    intro q n hqn
    rw [hprE2 q, hprE q]
    apply nar_perm_of_method hmethod
    · have := hndq q
      rw [hprE q] at this
      exact this
    · have := hPsel q n hqn
      rw [hprE q] at this
      exact this
  have hkeys12 : ∀ q, q ∈ cov.map Prod.fst → q ∈ cov2.map Prod.fst := by
    intro q hq
    obtain ⟨pc, hpc, hfst⟩ := List.mem_map.mp hq
    obtain ⟨q', n⟩ := pc
    have hq'q : q' = q := hfst
    subst hq'q
    have hne : n_atom_records sample method cap_size n
        (pr_getD precs q') ≠ [] :=
      records_to_keep_sel_ne_nil hrtk (q', n) hpc
    have hn : n = (pr_getD precs q').length := by
      rw [← hcovE q']
      exact (cov_count_eq_of_mem hinv.2 hpc).symm
    rw [hn] at hne
    have hne2 : n_atom_records sample method cap_size
        ((pr_getD precs2 q').length) (pr_getD precs2 q') ≠ [] := by
      intro hnil
      apply hne
      apply List.Perm.eq_nil
      have hp := hperm q' n hpc
      rw [hnil] at hp
      exact hp.symm
    have hE2ne : pr_getD precs2 q' ≠ [] := by
      intro hnil
      apply hne2
      rw [hnil]
      exact n_atom_records_nil sample hmethod cap_size _
    by_contra habs
    exact hE2ne (List.length_eq_zero.mp
      (by rw [← hcovE2 q']; exact cov_count_eq_zero_of_not_mem habs))
  have hkeys21 : ∀ q, q ∈ cov2.map Prod.fst → q ∈ cov.map Prod.fst := by
    intro q hq
    obtain ⟨pc, hpc, hfst⟩ := List.mem_map.mp hq
    obtain ⟨q', n2⟩ := pc
    have hq'q : q' = q := hfst
    subst hq'q
    have hpos : 1 ≤ n2 := gpd_counts_pos hgpd2 (q', n2) hpc
    have hlen2 : 1 ≤ (pr_getD precs2 q').length := by
      rw [← hcovE2 q', cov_count_eq_of_mem hinv2.2 hpc]
      exact hpos
    have hEne : pr_getD precs q' ≠ [] := by
      intro hnil
      have hsplit := hprE q'
      rw [hnil] at hsplit
      obtain ⟨hA0, hB0⟩ := List.append_eq_nil.mp hsplit.symm
      have h20 : pr_getD precs2 q' = [] := by
        rw [hprE2 q', hA0, hB0]
        simp
      rw [h20] at hlen2
      simp at hlen2
    by_contra habs
    exact hEne (List.length_eq_zero.mp
      (by rw [← hcovE q']; exact cov_count_eq_zero_of_not_mem habs))
  intro x
  rw [hmem1 x, hmem2 x]
  constructor
  · rintro ⟨⟨q, n⟩, hqn, hx⟩
    have hq2 : q ∈ cov2.map Prod.fst :=
      hkeys12 q (List.mem_map.mpr ⟨(q, n), hqn, rfl⟩)
    obtain ⟨pc2, hqn2, hfst2⟩ := List.mem_map.mp hq2
    obtain ⟨q', n2⟩ := pc2
    have hq'q : q' = q := hfst2
    subst hq'q
    refine ⟨(q', n2), hqn2, ?_⟩
    show x ∈ (n_atom_records sample method cap_size n2
      (pr_getD precs2 q')).map (·.2)
    have hn2 : n2 = (pr_getD precs2 q').length := by
      rw [← hcovE2 q']
      exact (cov_count_eq_of_mem hinv2.2 hqn2).symm
    rw [hn2]
    have hx' : x ∈ (n_atom_records sample method cap_size n
        (pr_getD precs q')).map (·.2) := hx
    have hn : n = (pr_getD precs q').length := by
      rw [← hcovE q']
      exact (cov_count_eq_of_mem hinv.2 hqn).symm
    rw [hn] at hx'
    exact ((hperm q' n hqn).map (·.2)).mem_iff.mpr hx'
  · rintro ⟨⟨q, n2⟩, hqn2, hx⟩
    have hq1 : q ∈ cov.map Prod.fst :=
      hkeys21 q (List.mem_map.mpr ⟨(q, n2), hqn2, rfl⟩)
    obtain ⟨pc1, hqn, hfst1⟩ := List.mem_map.mp hq1
    obtain ⟨q', n⟩ := pc1
    have hq'q : q' = q := hfst1
    subst hq'q
    refine ⟨(q', n), hqn, ?_⟩
    show x ∈ (n_atom_records sample method cap_size n
      (pr_getD precs q')).map (·.2)
    have hn : n = (pr_getD precs q').length := by
      rw [← hcovE q']
      exact (cov_count_eq_of_mem hinv.2 hqn).symm
    rw [hn]
    have hx' : x ∈ (n_atom_records sample method cap_size n2
        (pr_getD precs2 q')).map (·.2) := hx
    have hn2 : n2 = (pr_getD precs2 q').length := by
      rw [← hcovE2 q']
      exact (cov_count_eq_of_mem hinv2.2 hqn2).symm
    rw [hn2] at hx'
    exact ((hperm q' n hqn).map (·.2)).mem_iff.mp hx'

theorem map_filter_entries (ids : List String) (l : List DSEntry) :
    (l.filter (fun e => decide (e.record.id ∈ ids))).map
        (fun e => (e.record, e.molecule)) =
      (l.map (fun e => (e.record, e.molecule))).filter
        (fun rm => decide (rm.1.id ∈ ids)) := by
  induction l with
  | nil => rfl
  | cons e tl ih => by_cases he : e.record.id ∈ ids <;> simp [he, ih]

/-- C7: capping is idempotent for the deterministic policies — for every
dataset (with its records carrying distinct ids, as archive records do),
`cap_size`, and method `pick_heavy` or `pick_light`, the retained-record
set computed on the capped dataset equals the one computed on the source
dataset. -/
theorem C7_cap_idempotent (ff : ForceField)
    (sample : List (Nat × String) → Nat → List (Nat × String))
    (cap_size : Nat) (method : CapMethod) (rt : List String)
    (ds ds2 : Dataset) (ids ids2 : List String)
    (hmethod : method ≠ .pick_random)
    (hnodup : (ds.to_records.map (fun rm => rm.1.id)).Nodup)
    (hids : cap_retained_ids ff sample cap_size method rt ds = .ok ids)
    (hds2 : cap_torsions_per_parameter ff sample cap_size method rt ds =
      .ok ds2)
    (hids2 : cap_retained_ids ff sample cap_size method rt ds2 =
      .ok ids2) :
    ids.toFinset = ids2.toFinset := by
  obtain ⟨entries⟩ := ds
  unfold cap_torsions_per_parameter at hds2
  simp only [hids] at hds2
  cases entries with
  | nil => simp at hds2
  | cons kl rest =>
      obtain ⟨key, l⟩ := kl
      simp only [Except.ok.injEq] at hds2
      subst hds2
      unfold cap_retained_ids at hids hids2
      cases hgpd : get_parameter_distribution ff ["ProperTorsions"] rt
          (Dataset.mk ((key, l) :: rest)).to_records with
      | error e => simp only [hgpd] at hids; cases hids
      | ok st =>
          obtain ⟨cov, precs⟩ := st
          simp only [hgpd] at hids
          cases hrtk : records_to_keep sample method cap_size cov precs with
          | error e => simp only [hrtk] at hids; cases hids
          | ok rtk =>
              simp only [hrtk, Except.ok.injEq] at hids
              subst hids
              cases hgpd2 : get_parameter_distribution ff
                  ["ProperTorsions"] rt (Dataset.mk ((key, l.filter
                    (fun e => decide (e.record.id ∈ rtk.flatMap (·.2)))) ::
                    rest)).to_records with
              | error e => simp only [hgpd2] at hids2; cases hids2
              | ok st2 =>
                  obtain ⟨cov2, precs2⟩ := st2
                  simp only [hgpd2] at hids2
                  cases hrtk2 : records_to_keep sample method cap_size cov2
                      precs2 with
                  | error e => simp only [hrtk2] at hids2; cases hids2
                  | ok rtk2 =>
                      simp only [hrtk2, Except.ok.injEq] at hids2
                      subst hids2
                      have hA : (Dataset.mk ((key, l) :: rest)).to_records =
                          l.map (fun e => (e.record, e.molecule)) ++
                            rest.flatMap (fun kl => kl.2.map
                              (fun e => (e.record, e.molecule))) := by
                        simp [Dataset.to_records]
                      have hA2 : (Dataset.mk ((key, l.filter
                          (fun e => decide (e.record.id ∈
                            rtk.flatMap (·.2)))) :: rest)).to_records =
                          (l.map (fun e => (e.record, e.molecule))).filter
                            (fun rm => decide (rm.1.id ∈
                              rtk.flatMap (·.2))) ++
                            rest.flatMap (fun kl => kl.2.map
                              (fun e => (e.record, e.molecule))) := by
                        simp only [Dataset.to_records, List.flatMap_cons]
                        rw [map_filter_entries]
                      rw [hA] at hgpd hnodup
                      rw [hA2] at hgpd2
                      apply Finset.ext
                      intro x
                      simp only [List.mem_toFinset]
                      exact cap_ids_stable ff sample cap_size method rt
                        (l.map (fun e => (e.record, e.molecule)))
                        (rest.flatMap (fun kl => kl.2.map
                          (fun e => (e.record, e.molecule))))
                        cov cov2 precs precs2 rtk rtk2 hmethod hnodup
                        hgpd hrtk hgpd2 hrtk2 x

/-- Witness for `C7_cap_idempotent`: on the end-to-end scenario dataset with
`pick_heavy` and `cap_size = 3`, the first run retains `{r7, r5, r6}` and a
second run on the capped dataset retains the same set. -/
theorem C7_cap_idempotent_witness :
    (["r7", "r5", "r6"] : List String).toFinset =
      (["r5", "r6", "r7"] : List String).toFinset :=
  C7_cap_idempotent ff_t1 take_sample 3 .pick_heavy [] scenario_dataset
    ⟨[("a", [scenario_entry "r5" 9, scenario_entry "r6" 9,
      scenario_entry "r7" 12])]⟩
    ["r7", "r5", "r6"] ["r5", "r6", "r7"] (by decide) (by decide)
    (by decide) (by decide) (by decide)

end Vflib2
